import Mathlib

/-!
Verification of the puncturable GGM PRF tree of `ppoprf/src/ggm.rs`.

The Rust module is embedded shallowly:

* bit vectors (`BitVec<Lsb0, _>`) become `List Bool`, least-significant bit of
  each byte first, as produced by `BitVec::<Lsb0, u8>::from_slice` followed by
  `bvcast_u8_to_usize`;
* byte strings become `List Nat`;
* HMAC-SHA-256 is an abstract parameter `hmac : List Nat → List Nat → List Nat`
  (key, message ↦ tag); the fact that real tags are 32 bytes long is the
  explicit hypothesis `Hmac32 hmac`;
* panics become error values: `slice::copy_from_slice` on buffers of different
  lengths is `none`, the length-check panics of `GGM::eval`/`GGM::puncture`
  are `LengthMismatch`, and the in-tree panics are `CopyPanic`;
* `&mut self` methods return the new state next to their result, so that a
  call that panics returns the state as mutated so far.
-/

namespace Ggm

/-- Errors of the GGM module.  `NoPrefixFound` and `AlreadyPunctured` are the
two variants of the Rust `GGMError` enum; `LengthMismatch` models the
length-check panic at the top of `GGM::eval` and `GGM::puncture`, and
`CopyPanic` models the panic of `copy_from_slice` on buffers of mismatched
length (together with the unreachable `"Unexpected end of input"` panic in
`GGM::puncture`). -/
inductive GGMError where
  | NoPrefixFound
  | AlreadyPunctured
  | LengthMismatch
  | CopyPanic
deriving DecidableEq

/-- `slice::copy_from_slice`: replaces the entire destination when the lengths
agree, and panics (`none`) without writing anything otherwise. -/
def copyFromSlice (dst src : List Nat) : Option (List Nat) :=
  if dst.length = src.length then some src else none

/-- `Iterator::position`: index of the first element satisfying `p`. -/
def position (p : α → Bool) : List α → Option Nat
  | [] => none
  | a :: l => if p a then some 0 else (position p l).map (· + 1)

/-- `bitvec`'s `split_last`: the last bit together with the bits before it. -/
def splitLast (l : List Bool) : Option (Bool × List Bool) :=
  match l.getLast? with
  | some b => some (b, l.dropLast)
  | none => none

/-- A tree-node path (struct `Prefix` of the source), least-significant bit
first. -/
structure Pfx where
  bits : List Bool
deriving DecidableEq

/-- Lsb0 bit decomposition of one byte: bit `i` of the list is `b.testBit i`,
as in `BitVec::<Lsb0, u8>::from_slice` on a single byte. -/
def byteToBits (b : Nat) : List Bool :=
  (List.range 8).map (fun i => b.testBit i)

/-- Lsb0 bit decomposition of a byte string (`from_slice` followed by
`bvcast_u8_to_usize`). -/
def bytesToBits (input : List Nat) : List Bool :=
  (input.map byteToBits).flatten

/-- Left inverse of `byteToBits` (specification side only). -/
def bitsToByte (l : List Bool) : Nat :=
  l.foldr (fun b acc => (if b then 1 else 0) + 2 * acc) 0

variable (hmac : List Nat → List Nat → List Nat)

/-- The modelled fact that HMAC-SHA-256 tags are 32 bytes long. -/
def Hmac32 : Prop := ∀ k m, (hmac k m).length = 32

/-- `GGMPseudorandomGenerator`: holds one HMAC key. -/
structure GGMPseudorandomGenerator where
  key : List Nat
deriving DecidableEq

/-- `GGMPseudorandomGenerator::eval`: writes `HMAC(key, input)` over the whole
output buffer (`hmac::sign` then `copy_from_slice`). -/
def GGMPseudorandomGenerator.eval (prg : GGMPseudorandomGenerator)
    (input output : List Nat) : Option (List Nat) :=
  copyFromSlice output (hmac prg.key input)

/-- `GGMPuncturableKey`: the `prgs` vector is represented by its two elements
(`prg0` is `prgs[0]`, used for a 0 bit; `prg1` is `prgs[1]`). -/
structure GGMPuncturableKey where
  prg0 : GGMPseudorandomGenerator
  prg1 : GGMPseudorandomGenerator
  prefixes : List (Pfx × List Nat)
  punctured : List Pfx
deriving DecidableEq

/-- `GGMPuncturableKey::new`, with the three sampled secrets (the two PRG HMAC
keys and the root secret) passed explicitly.  The two initial frontier values
are the two directional PRGs evaluated on the root secret, written into fresh
32-byte buffers. -/
def GGMPuncturableKey.new (s0 s1 secret : List Nat) : Option GGMPuncturableKey :=
  match GGMPseudorandomGenerator.eval hmac ⟨s0⟩ secret (List.replicate 32 0),
        GGMPseudorandomGenerator.eval hmac ⟨s1⟩ secret (List.replicate 32 0) with
  | some out0, some out1 =>
    some { prg0 := ⟨s0⟩, prg1 := ⟨s1⟩,
           prefixes := [(⟨[false]⟩, out0), (⟨[true]⟩, out1)],
           punctured := [] }
  | _, _ => none

/-- `GGMPuncturableKey::find_prefix`: linear scan for the first frontier entry
whose prefix is a prefix of `bv`. -/
def GGMPuncturableKey.findPfx (k : GGMPuncturableKey) (bv : List Bool) :
    Except GGMError (Pfx × List Nat) :=
  match k.prefixes.find? (fun p => p.1.bits.isPrefixOf bv) with
  | some p => Except.ok p
  | none => Except.error GGMError.NoPrefixFound

/-- `GGMPuncturableKey::puncture`: the bookkeeping step.  Checks the punctured
list against the covering prefix, then removes the covering prefix from the
frontier, appends the replacement entries (if any) and records `to_punc`. -/
def GGMPuncturableKey.puncture (k : GGMPuncturableKey) (pfx to_punc : Pfx)
    (new_pfxs : List (Pfx × List Nat)) : GGMPuncturableKey × Except GGMError Unit :=
  if k.punctured.any (fun p => p.bits == pfx.bits) then
    (k, Except.error GGMError.AlreadyPunctured)
  else
    match position (fun p => p.1.bits == pfx.bits) k.prefixes with
    | some index =>
      let ps := k.prefixes.eraseIdx index
      let ps2 := if new_pfxs.isEmpty then ps else ps ++ new_pfxs
      ({ k with prefixes := ps2, punctured := k.punctured ++ [to_punc] },
       Except.ok ())
    | none => (k, Except.error GGMError.NoPrefixFound)

/-- The `GGM` tree: fixed input byte width plus the puncturable key. -/
structure GGM where
  inp_len : Nat
  key : GGMPuncturableKey
deriving DecidableEq

/-- The loop of `GGM::bit_eval`: starting from the covering value, apply the
directional PRG chosen by each bit, overwriting the working buffer. -/
def bitEvalCore (k : GGMPuncturableKey) : List Bool → List Nat → Option (List Nat)
  | [], ev => some ev
  | b :: rest, ev =>
    match GGMPseudorandomGenerator.eval hmac (if b then k.prg1 else k.prg0) ev ev with
    | some ev2 => bitEvalCore k rest ev2
    | none => none

/-- `GGM::bit_eval`: run the PRG chain, then copy the final working buffer
into the caller's output buffer. -/
def GGM.bit_eval (g : GGM) (bits : List Bool) (prg_inp output : List Nat) :
    Option (List Nat) :=
  match bitEvalCore hmac g.key bits prg_inp with
  | some ev => copyFromSlice output ev
  | none => none

/-- `GGM::partial_eval`: find the covering frontier entry and expand its value
along the remaining bits of the input. -/
def GGM.partEval (g : GGM) (input_bits : List Bool) (output : List Nat) :
    Except GGMError (List Nat) :=
  match g.key.findPfx input_bits with
  | Except.ok pfx =>
    match g.bit_eval hmac (input_bits.drop pfx.1.bits.length) pfx.2 output with
    | some out => Except.ok out
    | none => Except.error GGMError.CopyPanic
  | Except.error _ => Except.error GGMError.NoPrefixFound

/-- `GGM::eval` (the `PPRF` trait method): length check, bit conversion,
partial evaluation.  The result is the contents of the output buffer. -/
def GGM.eval (g : GGM) (input output : List Nat) : Except GGMError (List Nat) :=
  if input.length ≠ g.inp_len then Except.error GGMError.LengthMismatch
  else g.partEval hmac (bytesToBits input) output

/-- The sibling-recomputation loop of `GGM::puncture`.  `i` is the loop
counter of `for i in (0..bv.len()).rev()`, `iter_bv` the shrinking copy of the
input bits, `acc` the `new_pfxs` accumulator.  Each round flips the last bit
of `iter_bv` (via `set(i, ..)`, since `i` always equals `iter_bv.len() - 1`),
evaluates that sibling's subtree root into a fresh 32-byte buffer, and pushes
the pair; it stops when the remainder has the covering prefix's length (the
`break`).  At `i = 0` the `for` range is exhausted after the round, so the
accumulator is returned whether or not the `break` condition holds. -/
def GGM.punctureLoop (g : GGM) (pfx_len : Nat) (val : List Nat) :
    Nat → List Bool → List (Pfx × List Nat) → Option (List (Pfx × List Nat))
  | 0, iter_bv, acc =>
    match splitLast iter_bv with
    | none => none
    | some (last, rest) =>
      let cbv := iter_bv.set 0 (!last)
      match g.bit_eval hmac (cbv.drop pfx_len) val (List.replicate 32 0) with
      | none => none
      | some out =>
        if rest.length = pfx_len then some (acc ++ [(⟨cbv⟩, out)])
        else some (acc ++ [(⟨cbv⟩, out)])
  | i' + 1, iter_bv, acc =>
    match splitLast iter_bv with
    | none => none
    | some (last, rest) =>
      let cbv := iter_bv.set (i' + 1) (!last)
      match g.bit_eval hmac (cbv.drop pfx_len) val (List.replicate 32 0) with
      | none => none
      | some out =>
        if rest.length = pfx_len then some (acc ++ [(⟨cbv⟩, out)])
        else g.punctureLoop pfx_len val i' rest (acc ++ [(⟨cbv⟩, out)])

/-- The `new_pfxs` computation of `GGM::puncture`: no entries when the
covering prefix is as long as the input (`pfx_len == bv.len()`), otherwise
the sibling loop entered at `i = bv.len() - 1` (an empty `for` range would
produce no entries). -/
def GGM.siblingsFor (g : GGM) (pfx_len : Nat) (val : List Nat) (bv : List Bool) :
    Option (List (Pfx × List Nat)) :=
  if pfx_len ≠ bv.length then
    (if bv.length = 0 then some []
     else g.punctureLoop hmac pfx_len val (bv.length - 1) bv [])
  else some []

/-- `GGM::puncture` (the `PPRF` trait method): length check, covering-prefix
lookup, sibling recomputation when the covering prefix is shorter than the
input, then the key bookkeeping step.  Returns the state next to the
result. -/
def GGM.puncture (g : GGM) (input : List Nat) : GGM × Except GGMError Unit :=
  if input.length ≠ g.inp_len then (g, Except.error GGMError.LengthMismatch)
  else
    let bv := bytesToBits input
    match g.key.findPfx bv with
    | Except.ok pfx =>
      match g.siblingsFor hmac pfx.1.bits.length pfx.2 bv with
      | none => (g, Except.error GGMError.CopyPanic)
      | some new_pfxs =>
        let res := g.key.puncture pfx.1 ⟨bv⟩ new_pfxs
        ({ g with key := res.1 }, res.2)
    | Except.error _ => (g, Except.error GGMError.NoPrefixFound)

/-- `GGM::setup` (the `PPRF` trait method), secrets passed explicitly. -/
def GGM.setup (s0 s1 secret : List Nat) : Option GGM :=
  (GGMPuncturableKey.new hmac s0 s1 secret).map fun k => { inp_len := 1, key := k }

/-- Driver for the exhaustive-puncture property: puncture a list of inputs in
order, stopping at the first failure. -/
def punctureAll : GGM → List (List Nat) → GGM × Bool
  | g, [] => (g, true)
  | g, x :: rest =>
    match GGM.puncture hmac g x with
    | (g2, Except.ok _) => punctureAll g2 rest
    | (g2, Except.error _) => (g2, false)

/-- Spec-side: the value of the tree node reached from value `v` by following
`bits`, one directional PRG application per bit (cf. the evaluation algorithm
of §4.3: `v := PRG_b(v)` for each bit `b`). -/
def expandFrom (s0 s1 v : List Nat) (bits : List Bool) : List Nat :=
  bits.foldl (fun acc b => hmac (if b then s1 else s0) acc) v

/-- Spec-side: the replacement frontier entries produced by a partial-match
puncture of `bv` under a covering prefix of length `L` with value `v`.  For
each bit position `m` from `j - 1` down to `L`, the sibling prefix follows
`bv` for `m` bits and then flips bit `m`; its value expands `v` along the
sibling's bits past position `L`. -/
def sibEntries (s0 s1 : List Nat) (bv : List Bool) (L : Nat) (v : List Nat) :
    Nat → List (Pfx × List Nat)
  | 0 => []
  | j + 1 =>
    if j + 1 ≤ L then []
    else
      (⟨bv.take j ++ [!bv.getD j false]⟩,
        expandFrom hmac s0 s1 v ((bv.take j ++ [!bv.getD j false]).drop L)) ::
        sibEntries s0 s1 bv L v j

/-- The state invariant of the tree, relative to the root `secret`: the
configured width is one byte; frontier prefixes are non-empty and at most 8
bits long; the frontier is an antichain; punctured identifiers are full
leaves no frontier entry covers; every frontier value is the PRG expansion of
the root secret along its prefix; and a leaf is covered by the frontier
exactly when it has not been punctured. -/
structure Inv (secret : List Nat) (g : GGM) : Prop where
  width : g.inp_len = 1
  len_pos : ∀ e ∈ g.key.prefixes, 0 < e.1.bits.length
  len_le : ∀ e ∈ g.key.prefixes, e.1.bits.length ≤ 8
  antichain : g.key.prefixes.Pairwise
    (fun a b => ¬ a.1.bits <+: b.1.bits ∧ ¬ b.1.bits <+: a.1.bits)
  punc_len : ∀ q ∈ g.key.punctured, q.bits.length = 8
  punc_uncovered : ∀ q ∈ g.key.punctured, ∀ e ∈ g.key.prefixes,
    ¬ e.1.bits <+: q.bits
  values : ∀ e ∈ g.key.prefixes,
    e.2 = expandFrom hmac g.key.prg0.key g.key.prg1.key secret e.1.bits
  coverage : ∀ x : List Bool, x.length = 8 →
    ((∃ e ∈ g.key.prefixes, e.1.bits <+: x) ↔ Pfx.mk x ∉ g.key.punctured)

/-- States reachable from `setup()` by any sequence of `eval`/`puncture`
calls (`eval` takes `&self` and cannot change the state, so only `puncture`
steps appear). -/
inductive Reachable (s0 s1 secret : List Nat) : GGM → Prop where
  | setup : ∀ g, GGM.setup hmac s0 s1 secret = some g → Reachable s0 s1 secret g
  | punct : ∀ g input, Reachable s0 s1 secret g →
      Reachable s0 s1 secret (GGM.puncture hmac g input).1

/-- States reachable from a given state by any later sequence of
`eval`/`puncture` calls. -/
inductive ReachableFrom : GGM → GGM → Prop where
  | refl : ∀ g, ReachableFrom g g
  | punct : ∀ g g' input, ReachableFrom g g' →
      ReachableFrom g (GGM.puncture hmac g' input).1

end Ggm

namespace Ggm

/-! ### List helper lemmas -/

theorem splitLast_concat (l : List Bool) (a : Bool) :
    splitLast (l ++ [a]) = some (a, l) := by
  simp [splitLast, List.getLast?_concat, List.dropLast_concat]

theorem take_succ_getD (l : List α) (i : Nat) (d : α) (h : i < l.length) :
    l.take (i + 1) = l.take i ++ [l.getD i d] := by
  induction l generalizing i with
  | nil => simp at h
  | cons a t ih =>
    cases i with
    | zero => simp
    | succ i' =>
      simp only [List.take_succ_cons, List.getD_cons_succ, List.cons_append]
      rw [← ih i' (by simpa using h)]

theorem set_concat (l : List α) (a b : α) :
    (l ++ [a]).set l.length b = l ++ [b] := by
  induction l with
  | nil => simp
  | cons x t ih => simp [ih]

theorem concat_prefix_iff (a : List Bool) (c : Bool) (x : List Bool)
    (h : a.length < x.length) :
    (a ++ [c] <+: x) ↔ (a <+: x ∧ x.getD a.length false = c) := by
  rw [List.prefix_iff_eq_take, List.prefix_iff_eq_take]
  have hl : (a ++ [c]).length = a.length + 1 := by simp
  rw [hl, take_succ_getD x a.length false h]
  constructor
  · intro he
    obtain ⟨h1, h2⟩ := List.append_inj' he.symm (by simp)
    refine ⟨h1.symm, ?_⟩
    simp only [List.cons.injEq, and_true] at h2
    exact h2
  · rintro ⟨h1, h2⟩
    rw [← h1, h2]

theorem take_eq_of_take_eq (L m : Nat) (hLm : L ≤ m) (x y : List Bool)
    (h : x.take m = y.take m) : x.take L = y.take L := by
  have hx : x.take L = (x.take m).take L := by
    rw [List.take_take, Nat.min_eq_left hLm]
  have hy : y.take L = (y.take m).take L := by
    rw [List.take_take, Nat.min_eq_left hLm]
  rw [hx, hy, h]

theorem take_succ_eq_iff (x y : List Bool) (j : Nat) (hx : j < x.length)
    (hy : j < y.length) :
    x.take (j + 1) = y.take (j + 1) ↔
      (x.take j = y.take j ∧ x.getD j false = y.getD j false) := by
  rw [take_succ_getD x j false hx, take_succ_getD y j false hy]
  constructor
  · intro he
    obtain ⟨h1, h2⟩ := List.append_inj' he (by simp)
    exact ⟨h1, by simpa using h2⟩
  · rintro ⟨h1, h2⟩
    rw [h1, h2]

theorem getD_take (l : List α) (j m : Nat) (d : α) (h : m < j) :
    (l.take j).getD m d = l.getD m d := by
  simp [List.getD, List.getElem?_take, h]

theorem bytesToBits_singleton (x : Nat) : bytesToBits [x] = byteToBits x := by
  simp [bytesToBits]

theorem byteToBits_length (x : Nat) : (byteToBits x).length = 8 := by
  simp [byteToBits]

theorem bytesToBits_length (input : List Nat) :
    (bytesToBits input).length = 8 * input.length := by
  induction input with
  | nil => simp [bytesToBits]
  | cons a t ih =>
    simp only [bytesToBits, List.map_cons, List.flatten_cons, List.length_append,
      byteToBits_length, List.length_cons] at *
    omega

theorem find?_split (p : α → Bool) :
    ∀ (l : List α) (a : α), l.find? p = some a →
      ∃ l1 l2, l = l1 ++ a :: l2 ∧ p a = true ∧ ∀ b ∈ l1, p b = false
  | [], a, h => by simp at h
  | x :: t, a, h => by
    by_cases hx : p x
    · rw [List.find?_cons_of_pos _ hx] at h
      cases h
      exact ⟨[], t, rfl, hx, by simp⟩
    · rw [List.find?_cons_of_neg _ (by simpa using hx)] at h
      obtain ⟨l1, l2, he, hpa, hl1⟩ := find?_split p t a h
      refine ⟨x :: l1, l2, by simp [he], hpa, ?_⟩
      intro b hb
      rcases List.mem_cons.mp hb with rfl | hb
      · simpa using hx
      · exact hl1 b hb

theorem position_append (p : α → Bool) (l1 : List α) (a : α) (l2 : List α)
    (hl1 : ∀ b ∈ l1, p b = false) (ha : p a = true) :
    position p (l1 ++ a :: l2) = some l1.length := by
  induction l1 with
  | nil => simp [position, ha]
  | cons x t ih =>
    have hx := hl1 x (by simp)
    simp [position, hx, List.append_eq, ih (fun b hb => hl1 b (by simp [hb]))]

theorem eraseIdx_append_cons (l1 : List α) (a : α) (l2 : List α) :
    (l1 ++ a :: l2).eraseIdx l1.length = l1 ++ l2 := by
  induction l1 with
  | nil => simp
  | cons x t ih => simp [List.eraseIdx, ih]

theorem antichain_unique {l : List (Pfx × List Nat)}
    (h : l.Pairwise (fun a b => ¬ a.1.bits <+: b.1.bits ∧ ¬ b.1.bits <+: a.1.bits))
    {e1 e2 : Pfx × List Nat} (h1 : e1 ∈ l) (h2 : e2 ∈ l) {z : List Bool}
    (hp1 : e1.1.bits <+: z) (hp2 : e2.1.bits <+: z) : e1 = e2 := by
  by_contra hne
  have hsymm : Symmetric
      (fun a b : Pfx × List Nat => ¬ a.1.bits <+: b.1.bits ∧ ¬ b.1.bits <+: a.1.bits) :=
    fun a b hab => ⟨hab.2, hab.1⟩
  have hrel := List.Pairwise.forall hsymm h h1 h2 hne
  rcases List.prefix_or_prefix_of_prefix hp1 hp2 with hc | hc
  · exact hrel.1 hc
  · exact hrel.2 hc

end Ggm

namespace Ggm

variable (hmac : List Nat → List Nat → List Nat)

theorem expandFrom_cons (s0 s1 v : List Nat) (b : Bool) (t : List Bool) :
    expandFrom hmac s0 s1 v (b :: t) =
      expandFrom hmac s0 s1 (hmac (if b then s1 else s0) v) t := rfl

theorem expandFrom_append (s0 s1 v : List Nat) (a b : List Bool) :
    expandFrom hmac s0 s1 v (a ++ b) =
      expandFrom hmac s0 s1 (expandFrom hmac s0 s1 v a) b := by
  simp [expandFrom, List.foldl_append]

theorem expandFrom_length (h32 : Hmac32 hmac) (s0 s1 : List Nat) :
    ∀ (bits : List Bool) (v : List Nat), v.length = 32 →
      (expandFrom hmac s0 s1 v bits).length = 32
  | [], v, hv => hv
  | b :: t, v, _ => by
    rw [expandFrom_cons]
    exact expandFrom_length h32 s0 s1 t _ (h32 _ _)

theorem bitEvalCore_eq (h32 : Hmac32 hmac) (k : GGMPuncturableKey) :
    ∀ (bits : List Bool) (ev : List Nat), ev.length = 32 →
      bitEvalCore hmac k bits ev =
        some (expandFrom hmac k.prg0.key k.prg1.key ev bits)
  | [], ev, _ => by simp [bitEvalCore, expandFrom]
  | b :: t, ev, hv => by
    have hc : GGMPseudorandomGenerator.eval hmac (if b then k.prg1 else k.prg0) ev ev =
        some (hmac (if b then k.prg1 else k.prg0).key ev) := by
      simp [GGMPseudorandomGenerator.eval, copyFromSlice, hv, h32 _ _]
    rw [bitEvalCore]
    simp only [hc]
    rw [expandFrom_cons, bitEvalCore_eq h32 k t _ (h32 _ _)]
    cases b <;> rfl

theorem bit_eval_eq (h32 : Hmac32 hmac) (g : GGM) (bits : List Bool)
    (v out : List Nat) (hv : v.length = 32) :
    g.bit_eval hmac bits v out =
      if out.length = 32 then
        some (expandFrom hmac g.key.prg0.key g.key.prg1.key v bits)
      else none := by
  rw [GGM.bit_eval, bitEvalCore_eq hmac h32 _ _ _ hv]
  simp [copyFromSlice, expandFrom_length hmac h32 _ _ _ _ hv]

theorem findPfx_ok (k : GGMPuncturableKey) (bv : List Bool) (p : Pfx) (v : List Nat)
    (h : k.findPfx bv = Except.ok (p, v)) :
    p.bits <+: bv ∧
      ∃ l1 l2, k.prefixes = l1 ++ (p, v) :: l2 ∧
        ∀ e ∈ l1, ¬ e.1.bits <+: bv := by
  rw [GGMPuncturableKey.findPfx] at h
  cases hf : k.prefixes.find? (fun e => e.1.bits.isPrefixOf bv) with
  | none => rw [hf] at h; cases h
  | some e =>
    rw [hf] at h
    cases h
    obtain ⟨l1, l2, he, hpa, hl1⟩ := find?_split _ _ _ hf
    refine ⟨List.isPrefixOf_iff_prefix.mp hpa, l1, l2, he, ?_⟩
    intro b hb hc
    have := hl1 b hb
    rw [← List.isPrefixOf_iff_prefix] at hc
    simp [hc] at this

theorem findPfx_error (k : GGMPuncturableKey) (bv : List Bool)
    (h : ∀ e ∈ k.prefixes, ¬ e.1.bits <+: bv) :
    k.findPfx bv = Except.error GGMError.NoPrefixFound := by
  rw [GGMPuncturableKey.findPfx]
  have : k.prefixes.find? (fun e => e.1.bits.isPrefixOf bv) = none := by
    rw [List.find?_eq_none]
    intro e he
    simpa [List.isPrefixOf_iff_prefix] using h e he
  rw [this]

theorem getD_append_left (l l' : List α) (n : Nat) (d : α) (h : n < l.length) :
    (l ++ l').getD n d = l.getD n d := by
  simp only [List.getD, List.get?_eq_getElem?, List.getElem?_append, h, if_true]

theorem sib_length (bv : List Bool) (m : Nat) (h : m ≤ bv.length) :
    (bv.take m ++ [!bv.getD m false]).length = m + 1 := by
  simp only [List.length_append, List.length_take, List.length_cons,
    List.length_nil]
  omega

theorem sib_take (bv : List Bool) (m L : Nat) (hLm : L ≤ m) (hmb : m ≤ bv.length) :
    (bv.take m ++ [!bv.getD m false]).take L = bv.take L := by
  rw [List.take_append_of_le_length (by rw [List.length_take]; omega),
    List.take_take, Nat.min_eq_left hLm]

theorem sib_prefix_iff (bv : List Bool) (m : Nat) (x : List Bool)
    (hmx : m < x.length) (hmb : m < bv.length) :
    (bv.take m ++ [!bv.getD m false] <+: x) ↔
      (x.take m = bv.take m ∧ x.getD m false = !bv.getD m false) := by
  have hlen : (bv.take m).length = m := by rw [List.length_take]; omega
  have hlt : (bv.take m).length < x.length := by rw [hlen]; exact hmx
  rw [concat_prefix_iff _ _ _ hlt, hlen, List.prefix_iff_eq_take, hlen]
  constructor
  · rintro ⟨h1, h2⟩
    exact ⟨h1.symm, h2⟩
  · rintro ⟨h1, h2⟩
    exact ⟨h1.symm, h2⟩

end Ggm

namespace Ggm

variable (hmac : List Nat → List Nat → List Nat)

theorem sibEntries_eq_nil (s0 s1 : List Nat) (bv : List Bool) (L : Nat)
    (v : List Nat) : ∀ j, j ≤ L → sibEntries hmac s0 s1 bv L v j = []
  | 0, _ => rfl
  | j + 1, h => by rw [sibEntries]; simp [h]

theorem sibEntries_cons (s0 s1 : List Nat) (bv : List Bool) (L : Nat)
    (v : List Nat) (j : Nat) (h : L ≤ j) :
    sibEntries hmac s0 s1 bv L v (j + 1) =
      (⟨bv.take j ++ [!bv.getD j false]⟩,
        expandFrom hmac s0 s1 v ((bv.take j ++ [!bv.getD j false]).drop L)) ::
        sibEntries hmac s0 s1 bv L v j := by
  rw [sibEntries, if_neg (by omega)]

theorem mem_sibEntries (s0 s1 : List Nat) (bv : List Bool) (L : Nat)
    (v : List Nat) : ∀ j, ∀ e ∈ sibEntries hmac s0 s1 bv L v j,
      ∃ m, L ≤ m ∧ m < j ∧
        e = (⟨bv.take m ++ [!bv.getD m false]⟩,
          expandFrom hmac s0 s1 v ((bv.take m ++ [!bv.getD m false]).drop L))
  | 0, e, he => by simp [sibEntries] at he
  | j + 1, e, he => by
    by_cases hL : j + 1 ≤ L
    · rw [sibEntries_eq_nil hmac s0 s1 bv L v _ hL] at he
      simp at he
    · rw [sibEntries_cons hmac s0 s1 bv L v j (by omega)] at he
      rcases List.mem_cons.mp he with rfl | he
      · exact ⟨j, by omega, by omega, rfl⟩
      · obtain ⟨m, h1, h2, h3⟩ := mem_sibEntries s0 s1 bv L v j e he
        exact ⟨m, h1, by omega, h3⟩

theorem sibEntries_cover (s0 s1 : List Nat) (bv : List Bool) (L : Nat)
    (v : List Nat) (x : List Bool) :
    ∀ j, L ≤ j → j ≤ bv.length → j ≤ x.length →
      ((∃ e ∈ sibEntries hmac s0 s1 bv L v j, e.1.bits <+: x) ↔
        (x.take L = bv.take L ∧ ¬ x.take j = bv.take j))
  | 0, hLj, _, _ => by
    have hL0 : L = 0 := by omega
    subst hL0
    simp [sibEntries]
  | j + 1, hLj, hjb, hjx => by
    by_cases hL : j + 1 ≤ L
    · have hLe : L = j + 1 := by omega
      subst hLe
      rw [sibEntries_eq_nil hmac s0 s1 bv _ v _ (le_refl _)]
      simp
    · have hLj' : L ≤ j := by omega
      rw [sibEntries_cons hmac s0 s1 bv L v j hLj']
      have hcov := sibEntries_cover s0 s1 bv L v x j hLj' (by omega) (by omega)
      constructor
      · rintro ⟨e, he, hpe⟩
        rcases List.mem_cons.mp he with rfl | he
        · rw [sib_prefix_iff bv j x (by omega) (by omega)] at hpe
          refine ⟨take_eq_of_take_eq L j hLj' x bv hpe.1, ?_⟩
          rw [take_succ_eq_iff x bv j (by omega) (by omega)]
          rintro ⟨-, h2⟩
          rw [hpe.2] at h2
          cases bv.getD j false <;> simp at h2
        · have hres := hcov.mp ⟨e, he, hpe⟩
          refine ⟨hres.1, ?_⟩
          rw [take_succ_eq_iff x bv j (by omega) (by omega)]
          rintro ⟨h1, -⟩
          exact hres.2 h1
      · rintro ⟨h1, h2⟩
        rw [take_succ_eq_iff x bv j (by omega) (by omega)] at h2
        by_cases hj : x.take j = bv.take j
        · refine ⟨_, List.mem_cons_self _ _, ?_⟩
          rw [sib_prefix_iff bv j x (by omega) (by omega)]
          refine ⟨hj, ?_⟩
          have hne : ¬ x.getD j false = bv.getD j false := fun hc => h2 ⟨hj, hc⟩
          cases hx : x.getD j false <;> cases hb : bv.getD j false <;> simp_all
        · obtain ⟨e, he, hpe⟩ := hcov.mpr ⟨h1, hj⟩
          exact ⟨e, List.mem_cons_of_mem _ he, hpe⟩

theorem sibEntries_pairwise (s0 s1 : List Nat) (bv : List Bool) (L : Nat)
    (v : List Nat) : ∀ j, j ≤ bv.length →
      (sibEntries hmac s0 s1 bv L v j).Pairwise
        (fun a b => ¬ a.1.bits <+: b.1.bits ∧ ¬ b.1.bits <+: a.1.bits)
  | 0, _ => by simp [sibEntries]
  | j + 1, hj => by
    by_cases hL : j + 1 ≤ L
    · rw [sibEntries_eq_nil hmac s0 s1 bv L v _ hL]
      exact List.Pairwise.nil
    · rw [sibEntries_cons hmac s0 s1 bv L v j (by omega)]
      refine List.Pairwise.cons ?_ (sibEntries_pairwise s0 s1 bv L v j (by omega))
      intro e he
      obtain ⟨m, hm1, hm2, rfl⟩ := mem_sibEntries hmac s0 s1 bv L v j e he
      constructor
      · intro hc
        dsimp only at hc
        have hl1 := sib_length bv j (by omega)
        have hl2 := sib_length bv m (by omega)
        have := hc.length_le
        omega
      · intro hc
        dsimp only at hc
        rw [sib_prefix_iff bv m _ (by rw [sib_length bv j (by omega)]; omega)
          (by omega)] at hc
        have hg : (bv.take j ++ [!bv.getD j false]).getD m false = bv.getD m false := by
          rw [getD_append_left _ _ _ _ (by rw [List.length_take]; omega)]
          exact getD_take bv j m false (by omega)
        rw [hg] at hc
        have := hc.2
        cases bv.getD m false <;> simp at this

end Ggm

namespace Ggm

theorem set_concat_idx (l : List α) (a b : α) (i : Nat) (h : i = l.length) :
    (l ++ [a]).set i b = l ++ [b] := by
  subst h
  exact set_concat l a b

variable (hmac : List Nat → List Nat → List Nat)

theorem punctureLoop_eq (h32 : Hmac32 hmac) (g : GGM) (L : Nat) (v : List Nat)
    (hv : v.length = 32) (bv : List Bool) :
    ∀ (i : Nat) (acc : List (Pfx × List Nat)), L ≤ i → i + 1 ≤ bv.length →
      g.punctureLoop hmac L v i (bv.take (i + 1)) acc =
        some (acc ++ sibEntries hmac g.key.prg0.key g.key.prg1.key bv L v (i + 1)) := by
  intro i
  induction i with
  | zero =>
    intro acc hLi hib
    have hL0 : L = 0 := by omega
    subst hL0
    have htake : bv.take 1 = bv.take 0 ++ [bv.getD 0 false] :=
      take_succ_getD bv 0 false (by omega)
    have hsplit : splitLast (bv.take 1) = some (bv.getD 0 false, bv.take 0) := by
      rw [htake]
      exact splitLast_concat _ _
    have hset : (bv.take 1).set 0 (!bv.getD 0 false) =
        bv.take 0 ++ [!bv.getD 0 false] := by
      rw [htake]
      exact set_concat_idx _ _ _ _ (by simp)
    rw [GGM.punctureLoop]
    simp only [hsplit, hset,
      bit_eval_eq hmac h32 g ((bv.take 0 ++ [!bv.getD 0 false]).drop 0) v
        (List.replicate 32 0) hv,
      List.length_replicate, if_true]
    rw [sibEntries_cons hmac _ _ bv 0 v 0 (le_refl 0), sibEntries]
    simp
  | succ i' ih =>
    intro acc hLi hib
    have htake : bv.take (i' + 1 + 1) = bv.take (i' + 1) ++ [bv.getD (i' + 1) false] :=
      take_succ_getD bv (i' + 1) false (by omega)
    have hsplit : splitLast (bv.take (i' + 1 + 1)) =
        some (bv.getD (i' + 1) false, bv.take (i' + 1)) := by
      rw [htake]
      exact splitLast_concat _ _
    have hset : (bv.take (i' + 1 + 1)).set (i' + 1) (!bv.getD (i' + 1) false) =
        bv.take (i' + 1) ++ [!bv.getD (i' + 1) false] := by
      rw [htake]
      exact set_concat_idx _ _ _ _ (by rw [List.length_take]; omega)
    have hrest : (bv.take (i' + 1)).length = i' + 1 := by
      rw [List.length_take]; omega
    rw [GGM.punctureLoop]
    simp only [hsplit, hset,
      bit_eval_eq hmac h32 g ((bv.take (i' + 1) ++ [!bv.getD (i' + 1) false]).drop L) v
        (List.replicate 32 0) hv,
      List.length_replicate, if_true, hrest]
    rw [sibEntries_cons hmac _ _ bv L v (i' + 1) hLi]
    by_cases hbreak : i' + 1 = L
    · rw [if_pos hbreak, hbreak, sibEntries_eq_nil hmac _ _ bv L v L (le_refl L)]
    · rw [if_neg hbreak, ih _ (by omega) (by omega)]
      simp

end Ggm

namespace Ggm

variable (hmac : List Nat → List Nat → List Nat)

theorem expandFrom_length_pos (h32 : Hmac32 hmac) (s0 s1 : List Nat) :
    ∀ (bits : List Bool) (v : List Nat), bits ≠ [] →
      (expandFrom hmac s0 s1 v bits).length = 32
  | [], _, hne => absurd rfl hne
  | b :: t, v, _ => by
    rw [expandFrom_cons]
    cases t with
    | nil => exact h32 _ _
    | cons c t' => exact expandFrom_length_pos h32 s0 s1 (c :: t') _ (by simp)

theorem puncture_ok_char (secret : List Nat) (g : GGM) (hInv : Inv hmac secret g)
    (h32 : Hmac32 hmac) (input : List Nat) (hlen_in : input.length = g.inp_len)
    (p : Pfx) (v : List Nat)
    (hfind : g.key.findPfx (bytesToBits input) = Except.ok (p, v)) :
    ∃ l1 l2, g.key.prefixes = l1 ++ (p, v) :: l2 ∧
      (∀ e ∈ l1, ¬ e.1.bits <+: bytesToBits input) ∧
      GGM.puncture hmac g input =
        ({ g with key := { g.key with
            prefixes := (l1 ++ l2) ++
              (if p.bits.length = (bytesToBits input).length then []
               else sibEntries hmac g.key.prg0.key g.key.prg1.key (bytesToBits input)
                      p.bits.length v (bytesToBits input).length),
            punctured := g.key.punctured ++ [⟨bytesToBits input⟩] } },
         Except.ok ()) := by
  obtain ⟨hpre, l1, l2, hsplit, hl1⟩ := findPfx_ok g.key _ p v hfind
  refine ⟨l1, l2, hsplit, hl1, ?_⟩
  have hmem : (p, v) ∈ g.key.prefixes := by rw [hsplit]; simp
  have hin1 : input.length = 1 := by rw [hlen_in, hInv.width]
  have hbv : (bytesToBits input).length = 8 := by
    rw [bytesToBits_length, hin1]
  have hLpos : 0 < p.bits.length := hInv.len_pos _ hmem
  have hLle : p.bits.length ≤ 8 := by
    have := hpre.length_le
    omega
  have hv32 : v.length = 32 := by
    have hval : v = expandFrom hmac g.key.prg0.key g.key.prg1.key secret p.bits :=
      hInv.values (p, v) hmem
    rw [hval]
    exact expandFrom_length_pos hmac h32 _ _ _ _
      (by intro hc; rw [hc] at hLpos; simp at hLpos)
  have hany : (g.key.punctured.any fun q => q.bits == p.bits) = false := by
    rw [List.any_eq_false]
    intro q hq
    simp only [beq_iff_eq]
    intro hc
    exact hInv.punc_uncovered q hq (p, v) hmem (by rw [hc])
  have hposn : position (fun e => e.1.bits == p.bits) g.key.prefixes =
      some l1.length := by
    rw [hsplit]
    refine position_append _ l1 (p, v) l2 ?_ (by simp)
    intro b hb
    simp only [beq_eq_false_iff_ne, ne_eq]
    intro hc
    exact hl1 b hb (by rw [hc]; exact hpre)
  have herase : g.key.prefixes.eraseIdx l1.length = l1 ++ l2 := by
    rw [hsplit]
    exact eraseIdx_append_cons l1 _ l2
  rw [GGM.puncture, if_neg (by omega)]
  simp only [hfind]
  rw [GGM.siblingsFor]
  by_cases hL : p.bits.length = (bytesToBits input).length
  · rw [if_pos hL, if_neg (by omega)]
    simp only [GGMPuncturableKey.puncture, hany, Bool.false_eq_true, if_false,
      hposn, herase, List.isEmpty_nil, if_true, List.append_nil]
  · rw [if_neg hL, if_pos (by omega), if_neg (by omega), hbv]
    have hL7 : p.bits.length ≤ 7 := by omega
    have htk : bytesToBits input = (bytesToBits input).take (7 + 1) := by
      rw [List.take_of_length_le (by omega)]
    rw [show (8 : Nat) - 1 = 7 from rfl]
    rw [show (GGM.punctureLoop hmac g p.bits.length v 7 (bytesToBits input) []) =
        (GGM.punctureLoop hmac g p.bits.length v 7
          ((bytesToBits input).take (7 + 1)) []) from by rw [← htk]]
    rw [punctureLoop_eq hmac h32 g p.bits.length v hv32 (bytesToBits input) 7 []
      hL7 (by omega)]
    have hne : sibEntries hmac g.key.prg0.key g.key.prg1.key (bytesToBits input)
        p.bits.length v 8 ≠ [] := by
      rw [show (8 : Nat) = 7 + 1 from rfl,
        sibEntries_cons hmac _ _ _ _ v 7 hL7]
      simp
    simp only [GGMPuncturableKey.puncture, hany, Bool.false_eq_true, if_false,
      hposn, herase, List.nil_append, List.isEmpty_eq_true, hbv]
    rw [if_neg (by simpa using hne)]

end Ggm

namespace Ggm

variable (hmac : List Nat → List Nat → List Nat)

theorem inv_new_state (secret : List Nat) (g : GGM) (hInv : Inv hmac secret g)
    (bv : List Bool) (hbv : bv.length = 8)
    (p : Pfx) (v : List Nat) (l1 l2 : List (Pfx × List Nat))
    (hsplit : g.key.prefixes = l1 ++ (p, v) :: l2)
    (hpre : p.bits <+: bv) :
    Inv hmac secret
      { g with key := { g.key with
          prefixes := (l1 ++ l2) ++
            (if p.bits.length = bv.length then []
             else sibEntries hmac g.key.prg0.key g.key.prg1.key bv
               p.bits.length v bv.length),
          punctured := g.key.punctured ++ [⟨bv⟩] } } := by
  set L := p.bits.length with hLdef
  have hmem : (p, v) ∈ g.key.prefixes := by rw [hsplit]; simp
  have hLpos : 0 < L := hInv.len_pos _ hmem
  have hLle : L ≤ 8 := by
    have := hpre.length_le
    omega
  have hpbits : p.bits = bv.take L := by
    have := List.prefix_iff_eq_take.mp hpre
    rw [← hLdef] at this
    exact this
  have hsub : ∀ e ∈ l1 ++ l2, e ∈ g.key.prefixes := by
    intro e he
    rw [hsplit]
    rcases List.mem_append.mp he with h | h
    · exact List.mem_append.mpr (Or.inl h)
    · exact List.mem_append.mpr (Or.inr (List.mem_cons_of_mem _ h))
  have hrel_p : ∀ a ∈ l1 ++ l2, ¬ a.1.bits <+: p.bits ∧ ¬ p.bits <+: a.1.bits := by
    have hpw := hInv.antichain
    rw [hsplit, List.pairwise_append] at hpw
    obtain ⟨hpw1, hpw2, hcross⟩ := hpw
    intro a ha
    rcases List.mem_append.mp ha with ha | ha
    · exact hcross a ha (p, v) (List.mem_cons_self _ _)
    · have := (List.pairwise_cons.mp hpw2).1 a ha
      exact ⟨this.2, this.1⟩
  have hnocov_bv : ∀ e ∈ l1 ++ l2, ¬ e.1.bits <+: bv := by
    intro e he hc
    have heq := antichain_unique hInv.antichain (hsub e he) hmem hc hpre
    rw [heq] at he
    exact (hrel_p _ he).2 (List.prefix_refl _)
  have hp_sib : ∀ m, L ≤ m → m ≤ bv.length →
      p.bits <+: bv.take m ++ [!bv.getD m false] := by
    intro m h1 h2
    rw [List.prefix_iff_eq_take, ← hLdef, sib_take bv m _ h1 h2, ← hpbits]
  have hcov_split : ∀ x : List Bool,
      ((∃ e ∈ g.key.prefixes, e.1.bits <+: x) ↔
        ((∃ e ∈ l1 ++ l2, e.1.bits <+: x) ∨ p.bits <+: x)) := by
    intro x
    rw [hsplit]
    constructor
    · rintro ⟨e, he, hp⟩
      rcases List.mem_append.mp he with h | h
      · exact Or.inl ⟨e, List.mem_append.mpr (Or.inl h), hp⟩
      · rcases List.mem_cons.mp h with rfl | h
        · exact Or.inr hp
        · exact Or.inl ⟨e, List.mem_append.mpr (Or.inr h), hp⟩
    · rintro (⟨e, he, hp⟩ | hp)
      · rcases List.mem_append.mp he with h | h
        · exact ⟨e, List.mem_append.mpr (Or.inl h), hp⟩
        · exact ⟨e, List.mem_append.mpr (Or.inr (List.mem_cons_of_mem _ h)), hp⟩
      · exact ⟨(p, v), by simp, hp⟩
  have hmemE : ∀ e ∈ (if L = bv.length then ([] : List (Pfx × List Nat))
      else sibEntries hmac g.key.prg0.key g.key.prg1.key bv L v bv.length),
      ∃ m, L ≤ m ∧ m < bv.length ∧
        e = (⟨bv.take m ++ [!bv.getD m false]⟩,
          expandFrom hmac g.key.prg0.key g.key.prg1.key v
            ((bv.take m ++ [!bv.getD m false]).drop L)) := by
    intro e he
    by_cases hL : L = bv.length
    · rw [if_pos hL] at he
      simp at he
    · rw [if_neg hL] at he
      exact mem_sibEntries hmac _ _ bv _ v _ e he
  refine ⟨hInv.width, ?_, ?_, ?_, ?_, ?_, ?_, ?_⟩
  · intro e he
    rcases List.mem_append.mp he with h | h
    · exact hInv.len_pos e (hsub e h)
    · obtain ⟨m, hm1, hm2, rfl⟩ := hmemE e h
      dsimp only
      rw [sib_length bv m (by omega)]
      omega
  · intro e he
    rcases List.mem_append.mp he with h | h
    · exact hInv.len_le e (hsub e h)
    · obtain ⟨m, hm1, hm2, rfl⟩ := hmemE e h
      dsimp only
      rw [sib_length bv m (by omega)]
      omega
  · rw [List.pairwise_append]
    refine ⟨hInv.antichain.sublist ?_, ?_, ?_⟩
    · rw [hsplit]
      exact List.Sublist.append_left (List.sublist_cons_self _ _) l1
    · by_cases hL : L = bv.length
      · rw [if_pos hL]
        exact List.Pairwise.nil
      · rw [if_neg hL]
        exact sibEntries_pairwise hmac _ _ bv _ v bv.length (le_refl _)
    · intro a ha b hb
      obtain ⟨m, hm1, hm2, rfl⟩ := hmemE b hb
      dsimp only
      have hps := hp_sib m hm1 (by omega)
      constructor
      · intro hc
        rcases List.prefix_or_prefix_of_prefix hc hps with h | h
        · exact (hrel_p a ha).1 h
        · exact (hrel_p a ha).2 h
      · intro hc
        exact (hrel_p a ha).2 (hps.trans hc)
  · intro q hq
    rcases List.mem_append.mp hq with h | h
    · exact hInv.punc_len q h
    · rw [List.mem_singleton] at h
      subst h
      exact hbv
  · intro q hq e he
    rcases List.mem_append.mp hq with hq | hq
    · rcases List.mem_append.mp he with he | he
      · exact hInv.punc_uncovered q hq e (hsub e he)
      · obtain ⟨m, hm1, hm2, rfl⟩ := hmemE e he
        dsimp only
        intro hc
        exact hInv.punc_uncovered q hq (p, v) hmem ((hp_sib m hm1 (by omega)).trans hc)
    · rw [List.mem_singleton] at hq
      subst hq
      dsimp only
      rcases List.mem_append.mp he with he | he
      · exact hnocov_bv e he
      · obtain ⟨m, hm1, hm2, rfl⟩ := hmemE e he
        dsimp only
        intro hc
        rw [sib_prefix_iff bv m bv (by omega) (by omega)] at hc
        have hcc := hc.2
        cases bv.getD m false <;> simp at hcc
  · intro e he
    rcases List.mem_append.mp he with he | he
    · exact hInv.values e (hsub e he)
    · obtain ⟨m, hm1, hm2, rfl⟩ := hmemE e he
      dsimp only
      have hval : v = expandFrom hmac g.key.prg0.key g.key.prg1.key secret p.bits :=
        hInv.values (p, v) hmem
      have hjoin : p.bits ++ ((bv.take m ++ [!bv.getD m false]).drop L) =
          bv.take m ++ [!bv.getD m false] := by
        conv_lhs => rw [hpbits, ← sib_take bv m L hm1 (by omega)]
        exact List.take_append_drop _ _
      rw [hval, ← expandFrom_append, hjoin]
  · intro x hx
    dsimp only
    have hRHS : (Pfx.mk x ∉ g.key.punctured ++ [(⟨bv⟩ : Pfx)]) ↔
        (Pfx.mk x ∉ g.key.punctured ∧ ¬ x = bv) := by
      simp [not_or, Pfx.mk.injEq]
    rw [hRHS]
    constructor
    · rintro ⟨e, he, hp⟩
      rcases List.mem_append.mp he with he | he
      · have hold : Pfx.mk x ∉ g.key.punctured :=
          (hInv.coverage x hx).mp ⟨e, hsub e he, hp⟩
        refine ⟨hold, ?_⟩
        intro hxbv
        exact hnocov_bv e he (hxbv ▸ hp)
      · obtain ⟨m, hm1, hm2, rfl⟩ := hmemE e he
        dsimp only at hp
        have hpx : p.bits <+: x := (hp_sib m hm1 (by omega)).trans hp
        have hold : Pfx.mk x ∉ g.key.punctured :=
          (hInv.coverage x hx).mp ((hcov_split x).mpr (Or.inr hpx))
        refine ⟨hold, ?_⟩
        intro hxbv
        rw [hxbv] at hp
        rw [sib_prefix_iff bv m bv (by omega) (by omega)] at hp
        have hcc := hp.2
        cases bv.getD m false <;> simp at hcc
    · rintro ⟨hold, hne⟩
      have hcovx := (hInv.coverage x hx).mpr hold
      rcases (hcov_split x).mp hcovx with ⟨e, he, hp⟩ | hpx
      · exact ⟨e, List.mem_append.mpr (Or.inl he), hp⟩
      · by_cases hL8 : L = bv.length
        · exfalso
          have hpeq : p.bits = bv := List.IsPrefix.eq_of_length hpre (by omega)
          rw [hpeq] at hpx
          exact hne (List.IsPrefix.eq_of_length hpx (by omega)).symm
        · have htake_eq : x.take L = bv.take L := by
            have := List.prefix_iff_eq_take.mp hpx
            rw [← hLdef] at this
            rw [← this, ← hpbits]
          have htake_ne : ¬ x.take bv.length = bv.take bv.length := by
            rw [List.take_of_length_le (by omega), List.take_length]
            exact hne
          obtain ⟨e, he, hp⟩ :=
            (sibEntries_cover hmac _ _ bv L v x bv.length (by omega) (le_refl _)
              (by omega)).mpr ⟨htake_eq, htake_ne⟩
          refine ⟨e, List.mem_append.mpr (Or.inr ?_), hp⟩
          rw [if_neg hL8]
          exact he

end Ggm

namespace Ggm

variable (hmac : List Nat → List Nat → List Nat)

theorem keyPuncture_error_state (k : GGMPuncturableKey) (pfx to_punc : Pfx)
    (new_pfxs : List (Pfx × List Nat)) (e : GGMError)
    (h : (k.puncture pfx to_punc new_pfxs).2 = Except.error e) :
    (k.puncture pfx to_punc new_pfxs).1 = k := by
  rw [GGMPuncturableKey.puncture] at h ⊢
  by_cases hany : (k.punctured.any fun q => q.bits == pfx.bits) = true
  · rw [if_pos hany]
  · rw [if_neg hany] at h ⊢
    cases hpos : position (fun q => q.1.bits == pfx.bits) k.prefixes with
    | some idx =>
      rw [hpos] at h
      simp at h
    | none => rfl

theorem puncture_error_state (g : GGM) (input : List Nat) (e : GGMError)
    (h : (GGM.puncture hmac g input).2 = Except.error e) :
    (GGM.puncture hmac g input).1 = g := by
  rw [GGM.puncture] at h ⊢
  by_cases hlen : input.length ≠ g.inp_len
  · rw [if_pos hlen]
  · rw [if_neg hlen] at h ⊢
    cases hfind : g.key.findPfx (bytesToBits input) with
    | error e2 => simp only [hfind]
    | ok pv =>
      simp only [hfind] at h ⊢
      cases hloop : GGM.siblingsFor hmac g pv.1.bits.length pv.2 (bytesToBits input) with
      | none => simp only [hloop]
      | some new_pfxs =>
        simp only [hloop] at h ⊢
        rw [keyPuncture_error_state g.key pv.1 ⟨bytesToBits input⟩ new_pfxs e h]

theorem inv_setup (s0 s1 secret : List Nat) (g : GGM)
    (h : GGM.setup hmac s0 s1 secret = some g) : Inv hmac secret g := by
  rw [GGM.setup] at h
  cases hk : GGMPuncturableKey.new hmac s0 s1 secret with
  | none => rw [hk] at h; cases h
  | some k =>
    rw [hk] at h
    injection h with h2
    subst h2
    rw [GGMPuncturableKey.new] at hk
    cases h0 : GGMPseudorandomGenerator.eval hmac ⟨s0⟩ secret (List.replicate 32 0) with
    | none => rw [h0] at hk; cases hk
    | some out0 =>
      cases h1 : GGMPseudorandomGenerator.eval hmac ⟨s1⟩ secret (List.replicate 32 0) with
      | none => rw [h0, h1] at hk; cases hk
      | some out1 =>
        rw [h0, h1] at hk
        have hout0 : out0 = hmac s0 secret := by
          rw [GGMPseudorandomGenerator.eval, copyFromSlice] at h0
          by_cases hc : (List.replicate 32 0 : List Nat).length = (hmac s0 secret).length
          · rw [if_pos hc] at h0
            exact (Option.some_inj.mp h0).symm
          · rw [if_neg hc] at h0
            cases h0
        have hout1 : out1 = hmac s1 secret := by
          rw [GGMPseudorandomGenerator.eval, copyFromSlice] at h1
          by_cases hc : (List.replicate 32 0 : List Nat).length = (hmac s1 secret).length
          · rw [if_pos hc] at h1
            exact (Option.some_inj.mp h1).symm
          · rw [if_neg hc] at h1
            cases h1
        cases hk
        subst hout0
        subst hout1
        refine ⟨rfl, ?_, ?_, ?_, ?_, ?_, ?_, ?_⟩
        · intro e he
          rcases List.mem_cons.mp he with rfl | he
          · simp
          · rcases List.mem_singleton.mp he with rfl
            simp
        · intro e he
          rcases List.mem_cons.mp he with rfl | he
          · simp
          · rcases List.mem_singleton.mp he with rfl
            simp
        · refine List.Pairwise.cons ?_ (List.Pairwise.cons ?_ List.Pairwise.nil)
          · intro e he
            rcases List.mem_singleton.mp he with rfl
            constructor
            · intro hc
              have := List.prefix_iff_eq_take.mp hc
              simp at this
            · intro hc
              have := List.prefix_iff_eq_take.mp hc
              simp at this
          · intro e he
            cases he
        · intro q hq
          cases hq
        · intro q hq
          cases hq
        · intro e he
          rcases List.mem_cons.mp he with rfl | he
          · rfl
          · rcases List.mem_singleton.mp he with rfl
            rfl
        · intro x hx
          constructor
          · intro _
            intro hc
            cases hc
          · intro _
            cases x with
            | nil => simp at hx
            | cons b t =>
              cases b with
              | false =>
                refine ⟨(⟨[false]⟩, hmac s0 secret), by simp, ?_⟩
                rw [List.cons_prefix_cons]
                exact ⟨rfl, List.nil_prefix⟩
              | true =>
                refine ⟨(⟨[true]⟩, hmac s1 secret), by simp, ?_⟩
                rw [List.cons_prefix_cons]
                exact ⟨rfl, List.nil_prefix⟩

theorem inv_preserved (secret : List Nat) (g : GGM) (hInv : Inv hmac secret g)
    (h32 : Hmac32 hmac) (input : List Nat) :
    Inv hmac secret (GGM.puncture hmac g input).1 := by
  by_cases hlen : input.length ≠ g.inp_len
  · have hst : (GGM.puncture hmac g input).1 = g := by
      rw [GGM.puncture, if_pos hlen]
    rw [hst]
    exact hInv
  · cases hfind : g.key.findPfx (bytesToBits input) with
    | error e =>
      have hst : (GGM.puncture hmac g input).1 = g := by
        rw [GGM.puncture, if_neg hlen]
        simp only [hfind]
      rw [hst]
      exact hInv
    | ok pv =>
      obtain ⟨p, v⟩ := pv
      obtain ⟨l1, l2, hsplit, hl1, hres⟩ :=
        puncture_ok_char hmac secret g hInv h32 input (not_ne_iff.mp hlen) p v hfind
      rw [hres]
      have hbv : (bytesToBits input).length = 8 := by
        rw [bytesToBits_length, not_ne_iff.mp hlen, hInv.width]
      exact inv_new_state hmac secret g hInv (bytesToBits input) hbv p v l1 l2 hsplit
        (findPfx_ok g.key _ p v hfind).1

theorem reachable_inv (s0 s1 secret : List Nat) (h32 : Hmac32 hmac) (g : GGM)
    (h : Reachable hmac s0 s1 secret g) : Inv hmac secret g := by
  induction h with
  | setup g hg => exact inv_setup hmac s0 s1 secret g hg
  | punct g input hg ih => exact inv_preserved hmac secret g ih h32 input

theorem reachableFrom_inv (secret : List Nat) (h32 : Hmac32 hmac) (g g' : GGM)
    (h : ReachableFrom hmac g g') (hInv : Inv hmac secret g) :
    Inv hmac secret g' := by
  induction h with
  | refl => exact hInv
  | punct gb input hab ih => exact inv_preserved hmac secret gb ih h32 input

theorem keyPuncture_punctured_mono (k : GGMPuncturableKey) (pfx to_punc : Pfx)
    (new_pfxs : List (Pfx × List Nat)) (q : Pfx) (hq : q ∈ k.punctured) :
    q ∈ (k.puncture pfx to_punc new_pfxs).1.punctured := by
  rw [GGMPuncturableKey.puncture]
  by_cases hany : (k.punctured.any fun p2 => p2.bits == pfx.bits) = true
  · rw [if_pos hany]
    exact hq
  · rw [if_neg hany]
    cases hpos : position (fun p2 => p2.1.bits == pfx.bits) k.prefixes with
    | some idx =>
      simp only [hpos]
      exact List.mem_append.mpr (Or.inl hq)
    | none =>
      simp only [hpos]
      exact hq

theorem puncture_punctured_mono (g : GGM) (input : List Nat) (q : Pfx)
    (hq : q ∈ g.key.punctured) :
    q ∈ (GGM.puncture hmac g input).1.key.punctured := by
  rw [GGM.puncture]
  by_cases hlen : input.length ≠ g.inp_len
  · rw [if_pos hlen]
    exact hq
  · rw [if_neg hlen]
    cases hfind : g.key.findPfx (bytesToBits input) with
    | error e =>
      simp only [hfind]
      exact hq
    | ok pv =>
      simp only [hfind]
      cases hloop : GGM.siblingsFor hmac g pv.1.bits.length pv.2 (bytesToBits input) with
      | none =>
        simp only [hloop]
        exact hq
      | some new_pfxs =>
        simp only [hloop]
        exact keyPuncture_punctured_mono g.key pv.1 ⟨bytesToBits input⟩ new_pfxs q hq

theorem reachableFrom_punctured_mono (g g' : GGM) (h : ReachableFrom hmac g g')
    (q : Pfx) (hq : q ∈ g.key.punctured) : q ∈ g'.key.punctured := by
  induction h with
  | refl => exact hq
  | punct gb input hab ih => exact puncture_punctured_mono hmac gb input q ih

theorem keyPuncture_prgs (k : GGMPuncturableKey) (pfx to_punc : Pfx)
    (new_pfxs : List (Pfx × List Nat)) :
    (k.puncture pfx to_punc new_pfxs).1.prg0 = k.prg0 ∧
      (k.puncture pfx to_punc new_pfxs).1.prg1 = k.prg1 := by
  rw [GGMPuncturableKey.puncture]
  by_cases hany : (k.punctured.any fun p2 => p2.bits == pfx.bits) = true
  · rw [if_pos hany]
    simp
  · rw [if_neg hany]
    cases hpos : position (fun p2 => p2.1.bits == pfx.bits) k.prefixes with
    | some idx =>
      simp only [hpos]
      simp
    | none =>
      simp only [hpos]
      simp

theorem puncture_keeps (g : GGM) (input : List Nat) :
    (GGM.puncture hmac g input).1.inp_len = g.inp_len ∧
      (GGM.puncture hmac g input).1.key.prg0 = g.key.prg0 ∧
      (GGM.puncture hmac g input).1.key.prg1 = g.key.prg1 := by
  rw [GGM.puncture]
  by_cases hlen : input.length ≠ g.inp_len
  · rw [if_pos hlen]
    simp
  · rw [if_neg hlen]
    cases hfind : g.key.findPfx (bytesToBits input) with
    | error e =>
      simp only [hfind]
      simp
    | ok pv =>
      simp only [hfind]
      cases hloop : GGM.siblingsFor hmac g pv.1.bits.length pv.2 (bytesToBits input) with
      | none =>
        simp only [hloop]
        simp
      | some new_pfxs =>
        simp only [hloop]
        have hkp := keyPuncture_prgs g.key pv.1 ⟨bytesToBits input⟩ new_pfxs
        exact ⟨trivial, hkp.1, hkp.2⟩

theorem reachableFrom_keeps (g g' : GGM) (h : ReachableFrom hmac g g') :
    g'.inp_len = g.inp_len ∧ g'.key.prg0 = g.key.prg0 ∧
      g'.key.prg1 = g.key.prg1 := by
  induction h with
  | refl => exact ⟨rfl, rfl, rfl⟩
  | punct gb input hab ih =>
    have := puncture_keeps hmac gb input
    exact ⟨this.1.trans ih.1, this.2.1.trans ih.2.1, this.2.2.trans ih.2.2⟩

end Ggm

namespace Ggm

variable (hmac : List Nat → List Nat → List Nat)

theorem puncture_ok_facts (g : GGM) (input : List Nat)
    (h : (GGM.puncture hmac g input).2 = Except.ok ()) :
    input.length = g.inp_len ∧
      Pfx.mk (bytesToBits input) ∈ (GGM.puncture hmac g input).1.key.punctured := by
  rw [GGM.puncture] at h ⊢
  by_cases hlen : input.length ≠ g.inp_len
  · rw [if_pos hlen] at h
    cases h
  · rw [if_neg hlen] at h ⊢
    refine ⟨not_ne_iff.mp hlen, ?_⟩
    cases hfind : g.key.findPfx (bytesToBits input) with
    | error e =>
      simp only [hfind] at h
      cases h
    | ok pv =>
      simp only [hfind] at h ⊢
      cases hloop : GGM.siblingsFor hmac g pv.1.bits.length pv.2 (bytesToBits input) with
      | none =>
        simp only [hloop] at h
        cases h
      | some new_pfxs =>
        simp only [hloop] at h ⊢
        rw [GGMPuncturableKey.puncture] at h ⊢
        by_cases hany : (g.key.punctured.any fun q => q.bits == pv.1.bits) = true
        · rw [if_pos hany] at h
          cases h
        · rw [if_neg hany] at h ⊢
          cases hpos : position (fun q => q.1.bits == pv.1.bits) g.key.prefixes with
          | some idx =>
            simp only [hpos]
            simp
          | none =>
            rw [hpos] at h
            simp at h

theorem eval_live (secret : List Nat) (g : GGM) (hInv : Inv hmac secret g)
    (h32 : Hmac32 hmac) (input : List Nat) (hin : input.length = 1)
    (p : Pfx) (v : List Nat)
    (hfind : g.key.findPfx (bytesToBits input) = Except.ok (p, v)) (out : List Nat) :
    GGM.eval hmac g input out =
      if out.length = 32 then
        Except.ok (expandFrom hmac g.key.prg0.key g.key.prg1.key secret
          (bytesToBits input))
      else Except.error GGMError.CopyPanic := by
  obtain ⟨hpre, l1, l2, hsplit, hl1⟩ := findPfx_ok g.key _ p v hfind
  have hmem : (p, v) ∈ g.key.prefixes := by
    rw [hsplit]
    simp
  have hval : v = expandFrom hmac g.key.prg0.key g.key.prg1.key secret p.bits :=
    hInv.values (p, v) hmem
  have hLpos : 0 < p.bits.length := hInv.len_pos _ hmem
  have hv32 : v.length = 32 := by
    rw [hval]
    refine expandFrom_length_pos hmac h32 _ _ _ _ ?_
    intro hc
    rw [hc] at hLpos
    simp at hLpos
  rw [GGM.eval, if_neg (by rw [hin, hInv.width]; simp), GGM.partEval]
  simp only [hfind]
  set L := p.bits.length with hLdef
  have hpbits : p.bits = (bytesToBits input).take L := by
    have := List.prefix_iff_eq_take.mp hpre
    rw [← hLdef] at this
    exact this
  have hjoin : expandFrom hmac g.key.prg0.key g.key.prg1.key v
      ((bytesToBits input).drop L) =
      expandFrom hmac g.key.prg0.key g.key.prg1.key secret (bytesToBits input) := by
    rw [hval, ← expandFrom_append]
    congr 1
    conv_lhs => rw [hpbits]
    exact List.take_append_drop _ _
  rw [bit_eval_eq hmac h32 g _ v out hv32]
  by_cases ho : out.length = 32
  · simp only [if_pos ho]
    rw [hjoin]
  · simp only [if_neg ho]

theorem eval_punctured (secret : List Nat) (g : GGM) (hInv : Inv hmac secret g)
    (input : List Nat) (hin : input.length = 1)
    (hq : Pfx.mk (bytesToBits input) ∈ g.key.punctured) (out : List Nat) :
    GGM.eval hmac g input out = Except.error GGMError.NoPrefixFound := by
  have hfind : g.key.findPfx (bytesToBits input) =
      Except.error GGMError.NoPrefixFound :=
    findPfx_error g.key _ (fun e he => hInv.punc_uncovered _ hq e he)
  rw [GGM.eval, if_neg (by rw [hin, hInv.width]; simp), GGM.partEval]
  simp only [hfind]

theorem puncture_punctured (secret : List Nat) (g : GGM) (hInv : Inv hmac secret g)
    (input : List Nat) (hin : input.length = 1)
    (hq : Pfx.mk (bytesToBits input) ∈ g.key.punctured) :
    GGM.puncture hmac g input = (g, Except.error GGMError.NoPrefixFound) := by
  have hfind : g.key.findPfx (bytesToBits input) =
      Except.error GGMError.NoPrefixFound :=
    findPfx_error g.key _ (fun e he => hInv.punc_uncovered _ hq e he)
  rw [GGM.puncture, if_neg (by rw [hin, hInv.width]; simp)]
  simp only [hfind]

theorem findPfx_ok_of_live (secret : List Nat) (g : GGM) (hInv : Inv hmac secret g)
    (bv : List Bool) (hbv : bv.length = 8)
    (hq : Pfx.mk bv ∉ g.key.punctured) :
    ∃ pv, g.key.findPfx bv = Except.ok pv := by
  obtain ⟨e, he, hp⟩ := (hInv.coverage bv hbv).mpr hq
  rw [GGMPuncturableKey.findPfx]
  cases hf : g.key.prefixes.find? (fun p2 => p2.1.bits.isPrefixOf bv) with
  | none =>
    exfalso
    rw [List.find?_eq_none] at hf
    exact hf e he (by simpa [List.isPrefixOf_iff_prefix] using hp)
  | some pv => exact ⟨pv, rfl⟩

end Ggm

namespace Ggm

set_option maxRecDepth 100000 in
theorem byteToBits_bitsToByte : ∀ (a0 a1 a2 a3 a4 a5 a6 a7 : Bool),
    byteToBits (bitsToByte [a0, a1, a2, a3, a4, a5, a6, a7]) =
      [a0, a1, a2, a3, a4, a5, a6, a7] ∧
    bitsToByte [a0, a1, a2, a3, a4, a5, a6, a7] < 256 := by decide

set_option maxRecDepth 100000 in
theorem bitsToByte_byteToBits : ∀ a : Fin 256, bitsToByte (byteToBits a.val) = a.val := by
  decide

theorem byteToBits_inj (a b : Nat) (ha : a < 256) (hb : b < 256)
    (h : byteToBits a = byteToBits b) : a = b := by
  have h1 := bitsToByte_byteToBits ⟨a, ha⟩
  have h2 := bitsToByte_byteToBits ⟨b, hb⟩
  simp only at h1 h2
  rw [← h1, ← h2, h]

theorem byteToBits_surj (l : List Bool) (hl : l.length = 8) :
    ∃ b, b < 256 ∧ byteToBits b = l := by
  match l, hl with
  | [a0, a1, a2, a3, a4, a5, a6, a7], _ =>
    exact ⟨bitsToByte [a0, a1, a2, a3, a4, a5, a6, a7],
      (byteToBits_bitsToByte a0 a1 a2 a3 a4 a5 a6 a7).2,
      (byteToBits_bitsToByte a0 a1 a2 a3 a4 a5 a6 a7).1⟩

theorem mem_of_nodup_256 (xs : List Nat) (hnd : xs.Nodup) (hlt : ∀ x ∈ xs, x < 256)
    (hlen : xs.length = 256) : ∀ b, b < 256 → b ∈ xs := by
  intro b hb
  have hsub : xs.toFinset ⊆ Finset.range 256 := by
    intro y hy
    rw [List.mem_toFinset] at hy
    rw [Finset.mem_range]
    exact hlt y hy
  have hcard : (Finset.range 256).card ≤ xs.toFinset.card := by
    rw [Finset.card_range, List.toFinset_card_of_nodup hnd, hlen]
  have heq := Finset.eq_of_subset_of_card_le hsub hcard
  rw [← List.mem_toFinset, heq, Finset.mem_range]
  exact hb

end Ggm

namespace Ggm

variable (hmac : List Nat → List Nat → List Nat)

theorem prefixes_nil_of_all_punctured (secret : List Nat) (g : GGM)
    (hInv : Inv hmac secret g)
    (hall : ∀ b : Nat, b < 256 → Pfx.mk (byteToBits b) ∈ g.key.punctured) :
    g.key.prefixes = [] := by
  rw [List.eq_nil_iff_forall_not_mem]
  intro e he
  have hlen := hInv.len_le e he
  have hl8 : (e.1.bits ++ List.replicate (8 - e.1.bits.length) false).length = 8 := by
    simp only [List.length_append, List.length_replicate]
    omega
  have hcov : ∃ e2 ∈ g.key.prefixes,
      e2.1.bits <+: e.1.bits ++ List.replicate (8 - e.1.bits.length) false :=
    ⟨e, he, List.prefix_append _ _⟩
  have hnp := (hInv.coverage _ hl8).mp hcov
  obtain ⟨b, hb, hbits⟩ := byteToBits_surj _ hl8
  exact hnp (by rw [← hbits]; exact hall b hb)

theorem punctureAll_go (secret : List Nat) (h32 : Hmac32 hmac) :
    ∀ (xs : List Nat) (g : GGM), Inv hmac secret g →
      (∀ x ∈ xs, x < 256) → xs.Nodup →
      (∀ x ∈ xs, Pfx.mk (bytesToBits [x]) ∉ g.key.punctured) →
      (punctureAll hmac g (xs.map fun x => [x])).2 = true ∧
      Inv hmac secret (punctureAll hmac g (xs.map fun x => [x])).1 ∧
      ∀ q : Pfx, q ∈ (punctureAll hmac g (xs.map fun x => [x])).1.key.punctured ↔
        (q ∈ g.key.punctured ∨ ∃ x ∈ xs, q = Pfx.mk (bytesToBits [x]))
  | [], g, hInv, _, _, _ => by
    refine ⟨rfl, hInv, ?_⟩
    intro q
    simp [punctureAll]
  | x :: rest, g, hInv, hlt, hnd, hnp => by
    have hbv8 : (bytesToBits [x]).length = 8 := by
      rw [bytesToBits_length]
      simp
    obtain ⟨⟨p, v⟩, hfind⟩ := findPfx_ok_of_live hmac secret g hInv _ hbv8
      (hnp x (by simp))
    obtain ⟨l1, l2, hsplit, hl1, hres⟩ :=
      puncture_ok_char hmac secret g hInv h32 [x] (by rw [hInv.width]; simp) p v hfind
    have hok : (GGM.puncture hmac g [x]).2 = Except.ok () := by rw [hres]
    have hpunc2 : (GGM.puncture hmac g [x]).1.key.punctured =
        g.key.punctured ++ [Pfx.mk (bytesToBits [x])] := by
      rw [hres]
    have hInv2 : Inv hmac secret (GGM.puncture hmac g [x]).1 :=
      inv_preserved hmac secret g hInv h32 [x]
    have hstep : GGM.puncture hmac g [x] =
        ((GGM.puncture hmac g [x]).1, Except.ok ()) := by
      conv_lhs => rw [show GGM.puncture hmac g [x] =
        ((GGM.puncture hmac g [x]).1, (GGM.puncture hmac g [x]).2) from rfl]
      rw [hok]
    have hnp2 : ∀ y ∈ rest, Pfx.mk (bytesToBits [y]) ∉
        (GGM.puncture hmac g [x]).1.key.punctured := by
      intro y hy
      rw [hpunc2]
      intro hc
      rcases List.mem_append.mp hc with hc | hc
      · exact hnp y (by simp [hy]) hc
      · rw [List.mem_singleton] at hc
        have hbeq : bytesToBits [y] = bytesToBits [x] := by
          have := congrArg Pfx.bits hc
          simpa using this
      
        rw [bytesToBits_singleton, bytesToBits_singleton] at hbeq
        have hyx : y = x := byteToBits_inj y x (hlt y (by simp [hy]))
          (hlt x (by simp)) hbeq
        rw [hyx] at hy
        exact (List.nodup_cons.mp hnd).1 hy
    obtain ⟨ih1, ih2, ih3⟩ := punctureAll_go secret h32 rest
      (GGM.puncture hmac g [x]).1 hInv2 (fun y hy => hlt y (by simp [hy]))
      (List.nodup_cons.mp hnd).2 hnp2
    rw [List.map_cons, punctureAll, hstep]
    refine ⟨ih1, ih2, ?_⟩
    intro q
    rw [ih3 q, hpunc2]
    constructor
    · rintro (hq | ⟨y, hy, rfl⟩)
      · rcases List.mem_append.mp hq with hq | hq
        · exact Or.inl hq
        · rw [List.mem_singleton] at hq
          exact Or.inr ⟨x, by simp, hq⟩
      · exact Or.inr ⟨y, by simp [hy], rfl⟩
    · rintro (hq | ⟨y, hy, rfl⟩)
      · exact Or.inl (List.mem_append.mpr (Or.inl hq))
      · rcases List.mem_cons.mp hy with rfl | hy
        · exact Or.inl (List.mem_append.mpr (Or.inr (by simp)))
        · exact Or.inr ⟨y, hy, rfl⟩

end Ggm

namespace Ggm

variable (hmac : List Nat → List Nat → List Nat)

theorem keyPuncture_not_lm (k : GGMPuncturableKey) (pfx to_punc : Pfx)
    (new_pfxs : List (Pfx × List Nat)) :
    (k.puncture pfx to_punc new_pfxs).2 ≠ Except.error GGMError.LengthMismatch := by
  rw [GGMPuncturableKey.puncture]
  by_cases hany : (k.punctured.any fun q => q.bits == pfx.bits) = true
  · rw [if_pos hany]
    intro hc
    injection hc with h2
    cases h2
  · rw [if_neg hany]
    cases hpos : position (fun q => q.1.bits == pfx.bits) k.prefixes with
    | some idx =>
      simp only [hpos]
      intro hc
      cases hc
    | none =>
      simp only [hpos]
      intro hc
      injection hc with h2
      cases h2

theorem puncture_not_already (secret : List Nat) (g : GGM)
    (hInv : Inv hmac secret g) (input : List Nat) :
    (GGM.puncture hmac g input).2 ≠ Except.error GGMError.AlreadyPunctured := by
  rw [GGM.puncture]
  by_cases hlen : input.length ≠ g.inp_len
  · rw [if_pos hlen]
    intro hc
    injection hc with h2
    cases h2
  · rw [if_neg hlen]
    cases hfind : g.key.findPfx (bytesToBits input) with
    | error e =>
      simp only [hfind]
      intro hc
      injection hc with h2
      cases h2
    | ok pv =>
      simp only [hfind]
      obtain ⟨p, v⟩ := pv
      obtain ⟨hpre, l1, l2, hsplit, hl1⟩ := findPfx_ok g.key _ p v hfind
      have hmem : (p, v) ∈ g.key.prefixes := by
        rw [hsplit]
        simp
      have hany : (g.key.punctured.any fun q => q.bits == p.bits) = false := by
        rw [List.any_eq_false]
        intro q hq
        simp only [beq_iff_eq]
        intro hc
        exact hInv.punc_uncovered q hq (p, v) hmem (by rw [hc])
      cases hloop : GGM.siblingsFor hmac g p.bits.length v (bytesToBits input) with
      | none =>
        simp only [hloop]
        intro hc
        injection hc with h2
        cases h2
      | some new_pfxs =>
        simp only [hloop]
        rw [GGMPuncturableKey.puncture, if_neg (by rw [hany]; simp)]
        cases hpos : position (fun q => q.1.bits == p.bits) g.key.prefixes with
        | some idx =>
          simp only [hpos]
          intro hc
          cases hc
        | none =>
          simp only [hpos]
          intro hc
          injection hc with h2
          cases h2

theorem setup_punctured_nil (s0 s1 secret : List Nat) (g : GGM)
    (h : GGM.setup hmac s0 s1 secret = some g) : g.key.punctured = [] := by
  rw [GGM.setup] at h
  cases hk : GGMPuncturableKey.new hmac s0 s1 secret with
  | none => rw [hk] at h; cases h
  | some k =>
    rw [hk] at h
    injection h with h2
    subst h2
    rw [GGMPuncturableKey.new] at hk
    cases h0 : GGMPseudorandomGenerator.eval hmac ⟨s0⟩ secret (List.replicate 32 0) with
    | none => rw [h0] at hk; cases hk
    | some out0 =>
      cases h1 : GGMPseudorandomGenerator.eval hmac ⟨s1⟩ secret (List.replicate 32 0) with
      | none => rw [h0, h1] at hk; cases hk
      | some out1 =>
        rw [h0, h1] at hk
        cases hk
        rfl

end Ggm

namespace Ggm

/-- Concrete data for witnesses: a keyed-hash instantiation whose tag is
always 32 zero bytes, and the `setup` state it produces from all-zero
secrets. -/
def hmacW : List Nat → List Nat → List Nat := fun _ _ => List.replicate 32 0

def zeros : List Nat := List.replicate 32 0

def kW : GGMPuncturableKey :=
  { prg0 := ⟨zeros⟩, prg1 := ⟨zeros⟩,
    prefixes := [(⟨[false]⟩, zeros), (⟨[true]⟩, zeros)],
    punctured := [] }

def gW : GGM := { inp_len := 1, key := kW }

theorem hmacW_32 : Hmac32 hmacW := by
  intro k m
  simp [hmacW]

theorem setupW : GGM.setup hmacW zeros zeros zeros = some gW := rfl

theorem reachW : Reachable hmacW zeros zeros zeros gW :=
  Reachable.setup gW setupW

/-- The state after puncturing the byte `0` in the witness tree. -/
def gW1 : GGM := (GGM.puncture hmacW gW [0]).1

/-- The state after additionally puncturing the byte `128` (an exact-leaf
match) in the witness tree. -/
def gW2 : GGM := (GGM.puncture hmacW gW1 [128]).1

end Ggm

namespace Ggm

/-! ### Claim theorems -/

/-- C7: for every input whose byte length differs from the tree's configured
width, both `eval` and `puncture` fail with `LengthMismatch` (and `puncture`
returns the state unchanged); for inputs of the correct length neither
operation ever fails with `LengthMismatch`. -/
theorem length_validation (hmac : List Nat → List Nat → List Nat) (g : GGM)
    (input out : List Nat) :
    (input.length ≠ g.inp_len →
      GGM.eval hmac g input out = Except.error GGMError.LengthMismatch ∧
      GGM.puncture hmac g input = (g, Except.error GGMError.LengthMismatch)) ∧
    (input.length = g.inp_len →
      GGM.eval hmac g input out ≠ Except.error GGMError.LengthMismatch ∧
      (GGM.puncture hmac g input).2 ≠ Except.error GGMError.LengthMismatch) := by
  constructor
  · intro h
    exact ⟨by rw [GGM.eval, if_pos h], by rw [GGM.puncture, if_pos h]⟩
  · intro h
    constructor
    · rw [GGM.eval, if_neg (by omega), GGM.partEval]
      cases hfind : g.key.findPfx (bytesToBits input) with
      | ok pv =>
        simp only [hfind]
        cases hbe : g.bit_eval hmac ((bytesToBits input).drop pv.1.bits.length)
            pv.2 out with
        | some o =>
          simp only [hbe]
          intro hc
          cases hc
        | none =>
          simp only [hbe]
          intro hc
          injection hc with h2
          cases h2
      | error e =>
        simp only [hfind]
        intro hc
        injection hc with h2
        cases h2
    · rw [GGM.puncture, if_neg (by omega)]
      cases hfind : g.key.findPfx (bytesToBits input) with
      | error e =>
        simp only [hfind]
        intro hc
        injection hc with h2
        cases h2
      | ok pv =>
        simp only [hfind]
        cases hloop : GGM.siblingsFor hmac g pv.1.bits.length pv.2
            (bytesToBits input) with
        | none =>
          simp only [hloop]
          intro hc
          injection hc with h2
          cases h2
        | some new_pfxs =>
          simp only [hloop]
          exact keyPuncture_not_lm g.key pv.1 ⟨bytesToBits input⟩ new_pfxs

/-- C7 witness: a two-byte input fails with `LengthMismatch` on the witness
tree, while a one-byte input does not. -/
theorem length_validation_witness :
    GGM.eval hmacW gW [1, 2] zeros = Except.error GGMError.LengthMismatch ∧
    (GGM.puncture hmacW gW [5]).2 ≠ Except.error GGMError.LengthMismatch :=
  ⟨((length_validation hmacW gW [1, 2] zeros).1 (by simp [gW])).1,
   ((length_validation hmacW gW [5] zeros).2 (by simp [gW])).2⟩

/-- C8: whenever `puncture` fails — length mismatch, no covering prefix,
already punctured, or a buffer-copy panic — the resulting state is exactly
the pre-call state: frontier and punctured set untouched.  Mutation happens
only on a fully successful puncture.  (`eval` takes `&self` and is embedded
as a function that returns no state at all, so it cannot mutate.) -/
theorem error_atomicity (hmac : List Nat → List Nat → List Nat) (g : GGM)
    (input : List Nat) (e : GGMError)
    (h : (GGM.puncture hmac g input).2 = Except.error e) :
    (GGM.puncture hmac g input).1 = g :=
  puncture_error_state hmac g input e h

/-- C8 witness: a failing (wrong-length) puncture call on the witness tree
leaves the state unchanged. -/
theorem error_atomicity_witness :
    (GGM.puncture hmacW gW []).2 = Except.error GGMError.LengthMismatch ∧
    (GGM.puncture hmacW gW []).1 = gW :=
  ⟨rfl, error_atomicity hmacW gW [] GGMError.LengthMismatch rfl⟩

/-- C3: `eval` is deterministic — for a fixed reachable state and a live
1-byte input there is a single 32-byte value that every call returns,
whatever the prior contents of the caller's 32-byte buffer; and the
underlying PRG returns equal outputs for equal (key, input) pairs. -/
theorem eval_deterministic (hmac : List Nat → List Nat → List Nat)
    (s0 s1 secret : List Nat) (h32 : Hmac32 hmac) (g : GGM)
    (hreach : Reachable hmac s0 s1 secret g) (x : Nat) (hx : x < 256)
    (p : Pfx) (v : List Nat)
    (hfind : g.key.findPfx (bytesToBits [x]) = Except.ok (p, v)) :
    (∃ w : List Nat, w.length = 32 ∧ ∀ out : List Nat, out.length = 32 →
        GGM.eval hmac g [x] out = Except.ok w) ∧
    (∀ (p1 p2 : GGMPseudorandomGenerator) (i1 i2 o1 o2 : List Nat),
        p1.key = p2.key → i1 = i2 → o1.length = o2.length →
        p1.eval hmac i1 o1 = p2.eval hmac i2 o2) := by
  have hInv := reachable_inv hmac s0 s1 secret h32 g hreach
  constructor
  · refine ⟨expandFrom hmac g.key.prg0.key g.key.prg1.key secret (bytesToBits [x]),
      ?_, ?_⟩
    · refine expandFrom_length_pos hmac h32 _ _ _ _ ?_
      intro hc
      have h8 : (bytesToBits [x]).length = 8 := by
        rw [bytesToBits_length]
        simp
      rw [hc] at h8
      cases h8
    · intro out ho
      rw [eval_live hmac secret g hInv h32 [x] rfl p v hfind out, if_pos ho]
  · intro p1 p2 i1 i2 o1 o2 hk hi ho
    rw [GGMPseudorandomGenerator.eval, GGMPseudorandomGenerator.eval, hk, hi,
      copyFromSlice, copyFromSlice, ho]

/-- C3 witness at the concrete setup state and input `3`. -/
theorem eval_deterministic_witness :
    (∃ w : List Nat, w.length = 32 ∧ ∀ out : List Nat, out.length = 32 →
        GGM.eval hmacW gW [3] out = Except.ok w) ∧
    (∀ (p1 p2 : GGMPseudorandomGenerator) (i1 i2 o1 o2 : List Nat),
        p1.key = p2.key → i1 = i2 → o1.length = o2.length →
        p1.eval hmacW i1 o1 = p2.eval hmacW i2 o2) :=
  eval_deterministic hmacW zeros zeros zeros hmacW_32 gW reachW 3 (by decide)
    ⟨[true]⟩ zeros rfl

/-- C2: puncture exclusivity is terminal — once `puncture(x)` succeeds on a
reachable state, `eval(x)` fails with `NoPrefixFound` in the resulting state
and in every state reachable from it by any later sequence of operations. -/
theorem puncture_exclusivity_terminal (hmac : List Nat → List Nat → List Nat)
    (s0 s1 secret : List Nat) (h32 : Hmac32 hmac) (g : GGM)
    (hreach : Reachable hmac s0 s1 secret g) (x : Nat) (hx : x < 256)
    (hok : (GGM.puncture hmac g [x]).2 = Except.ok ()) (g' : GGM)
    (hlater : ReachableFrom hmac (GGM.puncture hmac g [x]).1 g')
    (out : List Nat) :
    GGM.eval hmac g' [x] out = Except.error GGMError.NoPrefixFound := by
  have hInv := reachable_inv hmac s0 s1 secret h32 g hreach
  have hInv1 := inv_preserved hmac secret g hInv h32 [x]
  have hInv2 := reachableFrom_inv hmac secret h32 _ g' hlater hInv1
  have hmem1 := (puncture_ok_facts hmac g [x] hok).2
  have hmem2 := reachableFrom_punctured_mono hmac _ g' hlater _ hmem1
  exact eval_punctured hmac secret g' hInv2 [x] rfl hmem2 out

/-- C2 witness: after puncturing `0` on the witness tree, `eval([0])` fails
with `NoPrefixFound` in that very state. -/
theorem puncture_exclusivity_terminal_witness :
    GGM.eval hmacW (GGM.puncture hmacW gW [0]).1 [0] zeros =
      Except.error GGMError.NoPrefixFound :=
  puncture_exclusivity_terminal hmacW zeros zeros zeros hmacW_32 gW reachW 0
    (by decide) rfl (GGM.puncture hmacW gW [0]).1 (ReachableFrom.refl _) zeros

/-- C9: through the public interface the `AlreadyPunctured` error can never
fire: in every reachable state `puncture` never returns it, because the check
compares the covering prefix returned by `find_prefix` against the punctured
set, and no frontier entry ever covers a punctured leaf.  A repeated puncture
of the same input instead fails at `find_prefix` with `NoPrefixFound`. -/
theorem already_punctured_unreachable (hmac : List Nat → List Nat → List Nat)
    (s0 s1 secret : List Nat) (h32 : Hmac32 hmac) (g : GGM)
    (hreach : Reachable hmac s0 s1 secret g) :
    (∀ input : List Nat,
      (GGM.puncture hmac g input).2 ≠ Except.error GGMError.AlreadyPunctured) ∧
    (∀ input : List Nat, (GGM.puncture hmac g input).2 = Except.ok () →
      ∀ g', ReachableFrom hmac (GGM.puncture hmac g input).1 g' →
        (GGM.puncture hmac g' input).2 = Except.error GGMError.NoPrefixFound) := by
  have hInv := reachable_inv hmac s0 s1 secret h32 g hreach
  constructor
  · intro input
    exact puncture_not_already hmac secret g hInv input
  · intro input hok g' hlater
    have hInv1 := inv_preserved hmac secret g hInv h32 input
    have hInv2 := reachableFrom_inv hmac secret h32 _ g' hlater hInv1
    have hfacts := puncture_ok_facts hmac g input hok
    have hmem2 := reachableFrom_punctured_mono hmac _ g' hlater _ hfacts.2
    have hin : input.length = 1 := by
      rw [hfacts.1, hInv.width]
    rw [puncture_punctured hmac secret g' hInv2 input hin hmem2]

/-- C9 witness: on the witness tree, puncturing `7` does not raise
`AlreadyPunctured`, and a second puncture of `7` fails with
`NoPrefixFound`. -/
theorem already_punctured_unreachable_witness :
    (GGM.puncture hmacW gW [7]).2 ≠ Except.error GGMError.AlreadyPunctured ∧
    (GGM.puncture hmacW (GGM.puncture hmacW gW [7]).1 [7]).2 =
      Except.error GGMError.NoPrefixFound :=
  ⟨(already_punctured_unreachable hmacW zeros zeros zeros hmacW_32 gW reachW).1 [7],
   (already_punctured_unreachable hmacW zeros zeros zeros hmacW_32 gW reachW).2 [7]
     rfl (GGM.puncture hmacW gW [7]).1 (ReachableFrom.refl _)⟩

end Ggm

namespace Ggm

theorem reachW1 : Reachable hmacW zeros zeros zeros gW1 :=
  Reachable.punct gW [0] reachW

/-- C5 counterexample: a concrete trace (puncture `0`, then `128`) in which
the first `puncture([128])` is an exact-leaf match — the covering prefix is
the full 8-bit leaf — and succeeds, while the second `puncture([128])` fails
with `NoPrefixFound`, not with `AlreadyPunctured` as the claim states:
`find_prefix` fails before the `AlreadyPunctured` check is ever reached. -/
theorem repuncture_exact_cex :
    (∃ v, gW1.key.findPfx (bytesToBits [128]) =
        Except.ok (⟨bytesToBits [128]⟩, v)) ∧
    (GGM.puncture hmacW gW1 [128]).2 = Except.ok () ∧
    (GGM.puncture hmacW gW2 [128]).2 = Except.error GGMError.NoPrefixFound ∧
    (GGM.puncture hmacW gW2 [128]).2 ≠ Except.error GGMError.AlreadyPunctured := by
  refine ⟨⟨zeros, ?_⟩, ?_, ?_, ?_⟩
  · rfl
  · rfl
  · rfl
  · intro hc
    rw [show (GGM.puncture hmacW gW2 [128]).2 =
      Except.error GGMError.NoPrefixFound from rfl] at hc
    injection hc with h2
    cases h2

/-- C5 amended: if the first successful `puncture(x)` was an exact-leaf
match (covering prefix length equal to `x`'s bit length), a second
`puncture(x)` fails with `NoPrefixFound` — not `AlreadyPunctured` — because
the leaf's entry was removed from the frontier and no other entry can cover
a punctured leaf. -/
theorem repuncture_exact_nopfx (hmac : List Nat → List Nat → List Nat)
    (s0 s1 secret : List Nat) (h32 : Hmac32 hmac) (g : GGM)
    (hreach : Reachable hmac s0 s1 secret g) (x : Nat) (hx : x < 256)
    (p : Pfx) (v : List Nat)
    (hfind : g.key.findPfx (bytesToBits [x]) = Except.ok (p, v))
    (hexact : p.bits.length = (bytesToBits [x]).length)
    (hok : (GGM.puncture hmac g [x]).2 = Except.ok ()) :
    (GGM.puncture hmac (GGM.puncture hmac g [x]).1 [x]).2 =
      Except.error GGMError.NoPrefixFound := by
  have hInv := reachable_inv hmac s0 s1 secret h32 g hreach
  have hInv1 := inv_preserved hmac secret g hInv h32 [x]
  have hmem1 := (puncture_ok_facts hmac g [x] hok).2
  rw [puncture_punctured hmac secret _ hInv1 [x] rfl hmem1]

/-- C5 amended witness: the same concrete trace, through the general
theorem. -/
theorem repuncture_exact_nopfx_witness :
    (GGM.puncture hmacW (GGM.puncture hmacW gW1 [128]).1 [128]).2 =
      Except.error GGMError.NoPrefixFound :=
  repuncture_exact_nopfx hmacW zeros zeros zeros hmacW_32 gW1 reachW1 128
    (by decide) ⟨bytesToBits [128]⟩ zeros rfl rfl rfl

/-- C6: in every reachable state the frontier is an antichain — no entry's
prefix is a prefix of another entry's prefix — and consequently
`find_prefix` can match at most one frontier entry for any input. -/
theorem frontier_antichain (hmac : List Nat → List Nat → List Nat)
    (s0 s1 secret : List Nat) (h32 : Hmac32 hmac) (g : GGM)
    (hreach : Reachable hmac s0 s1 secret g) :
    g.key.prefixes.Pairwise
      (fun a b => ¬ a.1.bits <+: b.1.bits ∧ ¬ b.1.bits <+: a.1.bits) ∧
    ∀ bv : List Bool,
      (g.key.prefixes.filter (fun e => e.1.bits.isPrefixOf bv)).length ≤ 1 := by
  have hInv := reachable_inv hmac s0 s1 secret h32 g hreach
  refine ⟨hInv.antichain, ?_⟩
  intro bv
  cases hf : g.key.prefixes.filter (fun e => e.1.bits.isPrefixOf bv) with
  | nil => simp
  | cons a t =>
    cases t with
    | nil => simp
    | cons b t2 =>
      exfalso
      have hpw : (a :: b :: t2).Pairwise
          (fun a b => ¬ a.1.bits <+: b.1.bits ∧ ¬ b.1.bits <+: a.1.bits) := by
        rw [← hf]
        exact hInv.antichain.filter _
      have hrel := (List.pairwise_cons.mp hpw).1 b (by simp)
      have ha : a ∈ g.key.prefixes.filter (fun e => e.1.bits.isPrefixOf bv) := by
        rw [hf]
        simp
      have hb : b ∈ g.key.prefixes.filter (fun e => e.1.bits.isPrefixOf bv) := by
        rw [hf]
        simp
      rw [List.mem_filter] at ha hb
      have hpa : a.1.bits <+: bv := List.isPrefixOf_iff_prefix.mp ha.2
      have hpb : b.1.bits <+: bv := List.isPrefixOf_iff_prefix.mp hb.2
      rcases List.prefix_or_prefix_of_prefix hpa hpb with h | h
      · exact hrel.1 h
      · exact hrel.2 h

/-- C6 witness at the concrete setup state. -/
theorem frontier_antichain_witness :
    gW.key.prefixes.Pairwise
      (fun a b => ¬ a.1.bits <+: b.1.bits ∧ ¬ b.1.bits <+: a.1.bits) ∧
    (gW.key.prefixes.filter
      (fun e => e.1.bits.isPrefixOf (bytesToBits [4]))).length ≤ 1 :=
  ⟨(frontier_antichain hmacW zeros zeros zeros hmacW_32 gW reachW).1,
   (frontier_antichain hmacW zeros zeros zeros hmacW_32 gW reachW).2
     (bytesToBits [4])⟩

/-- C10: `eval` writes all 32 bytes or nothing — with a live 1-byte input, a
32-byte output buffer receives the full derived 32-byte value, while a
buffer of any other length makes the final `copy_from_slice` abort
(`CopyPanic` in the model) without a single byte written: the derivation
happens in a temporary and is copied into the caller's buffer only at the
end, and `copyFromSlice` is all-or-nothing. -/
theorem eval_writes_all_or_nothing (hmac : List Nat → List Nat → List Nat)
    (s0 s1 secret : List Nat) (h32 : Hmac32 hmac) (g : GGM)
    (hreach : Reachable hmac s0 s1 secret g) (x : Nat) (hx : x < 256)
    (p : Pfx) (v : List Nat)
    (hfind : g.key.findPfx (bytesToBits [x]) = Except.ok (p, v))
    (out : List Nat) :
    (out.length = 32 →
      ∃ w, GGM.eval hmac g [x] out = Except.ok w ∧ w.length = 32) ∧
    (out.length ≠ 32 →
      GGM.eval hmac g [x] out = Except.error GGMError.CopyPanic) := by
  have hInv := reachable_inv hmac s0 s1 secret h32 g hreach
  have hev := eval_live hmac secret g hInv h32 [x] rfl p v hfind out
  constructor
  · intro ho
    rw [hev, if_pos ho]
    refine ⟨_, rfl, ?_⟩
    refine expandFrom_length_pos hmac h32 _ _ _ _ ?_
    intro hc
    have h8 : (bytesToBits [x]).length = 8 := by
      rw [bytesToBits_length]
      simp
    rw [hc] at h8
    cases h8
  · intro ho
    rw [hev, if_neg ho]

/-- C10 witness: input `6` on the witness tree with a 32-byte and a 3-byte
buffer. -/
theorem eval_writes_all_or_nothing_witness :
    (∃ w, GGM.eval hmacW gW [6] zeros = Except.ok w ∧ w.length = 32) ∧
    GGM.eval hmacW gW [6] [0, 0, 0] = Except.error GGMError.CopyPanic :=
  ⟨(eval_writes_all_or_nothing hmacW zeros zeros zeros hmacW_32 gW reachW 6
      (by decide) ⟨[false]⟩ zeros rfl zeros).1 (by decide),
   (eval_writes_all_or_nothing hmacW zeros zeros zeros hmacW_32 gW reachW 6
      (by decide) ⟨[false]⟩ zeros rfl [0, 0, 0]).2 (by decide)⟩

end Ggm

namespace Ggm

/-- C1: puncture locality — on any reachable state, a successful
`puncture(x)` does not change `eval(y)` for any other live 1-byte input `y`
(live before and after), and during a partial-match puncture the replacement
frontier entries cover exactly the leaves of the removed entry minus `x`,
each valued by expanding the removed entry's value along its path bits. -/
theorem puncture_locality (hmac : List Nat → List Nat → List Nat)
    (s0 s1 secret : List Nat) (h32 : Hmac32 hmac) (g : GGM)
    (hreach : Reachable hmac s0 s1 secret g) (x y : Nat) (hx : x < 256)
    (hy : y < 256) (hne : y ≠ x) (p : Pfx) (v : List Nat)
    (hfind : g.key.findPfx (bytesToBits [x]) = Except.ok (p, v))
    (hok : (GGM.puncture hmac g [x]).2 = Except.ok ())
    (py : Pfx) (vy : List Nat)
    (hlive_before : g.key.findPfx (bytesToBits [y]) = Except.ok (py, vy))
    (py2 : Pfx) (vy2 : List Nat)
    (hlive_after : (GGM.puncture hmac g [x]).1.key.findPfx (bytesToBits [y]) =
      Except.ok (py2, vy2))
    (out : List Nat) (hout : out.length = 32) :
    GGM.eval hmac (GGM.puncture hmac g [x]).1 [y] out =
      GGM.eval hmac g [y] out ∧
    (∃ w, GGM.eval hmac g [y] out = Except.ok w ∧ w.length = 32) ∧
    (p.bits.length ≠ 8 → ∃ newE,
      GGM.siblingsFor hmac g p.bits.length v (bytesToBits [x]) = some newE ∧
      (∀ lf : List Bool, lf.length = 8 →
        ((∃ e ∈ newE, e.1.bits <+: lf) ↔
          (p.bits <+: lf ∧ lf ≠ bytesToBits [x]))) ∧
      (∀ e ∈ newE, e.2 = expandFrom hmac g.key.prg0.key g.key.prg1.key v
        (e.1.bits.drop p.bits.length))) := by
  have hInv := reachable_inv hmac s0 s1 secret h32 g hreach
  have hInv1 := inv_preserved hmac secret g hInv h32 [x]
  have hkeeps := puncture_keeps hmac g [x]
  have hev_b := eval_live hmac secret g hInv h32 [y] rfl py vy hlive_before out
  have hev_a := eval_live hmac secret _ hInv1 h32 [y] rfl py2 vy2 hlive_after out
  have hbv8 : (bytesToBits [x]).length = 8 := by
    rw [bytesToBits_length]
    simp
  have hy8 : (bytesToBits [y]).length = 8 := by
    rw [bytesToBits_length]
    simp
  refine ⟨?_, ?_, ?_⟩
  · rw [hev_b, hev_a, hkeeps.2.1, hkeeps.2.2]
  · rw [hev_b, if_pos hout]
    refine ⟨_, rfl, ?_⟩
    refine expandFrom_length_pos hmac h32 _ _ _ _ ?_
    intro hc
    rw [hc] at hy8
    cases hy8
  · intro hL8
    obtain ⟨hpre, l1, l2, hsplit, hl1⟩ := findPfx_ok g.key _ p v hfind
    have hmem : (p, v) ∈ g.key.prefixes := by
      rw [hsplit]
      simp
    have hLpos := hInv.len_pos _ hmem
    have hLle : p.bits.length ≤ 8 := by
      have := hpre.length_le
      omega
    have hL7 : p.bits.length ≤ 7 := by
      omega
    have hv32 : v.length = 32 := by
      have hval : v = expandFrom hmac g.key.prg0.key g.key.prg1.key secret p.bits :=
        hInv.values (p, v) hmem
      rw [hval]
      refine expandFrom_length_pos hmac h32 _ _ _ _ ?_
      intro hc
      rw [hc] at hLpos
      simp at hLpos
    have htake : (bytesToBits [x]).take (7 + 1) = bytesToBits [x] :=
      List.take_of_length_le (by omega)
    have hle := punctureLoop_eq hmac h32 g p.bits.length v hv32 (bytesToBits [x])
      7 [] hL7 (by omega)
    rw [htake] at hle
    have hloop : GGM.siblingsFor hmac g p.bits.length v (bytesToBits [x]) =
        some (sibEntries hmac g.key.prg0.key g.key.prg1.key (bytesToBits [x])
          p.bits.length v 8) := by
      rw [GGM.siblingsFor,
        if_pos (show p.bits.length ≠ (bytesToBits [x]).length from by omega),
        if_neg (show ¬ (bytesToBits [x]).length = 0 from by omega)]
      rw [hbv8, show (8 : Nat) - 1 = 7 from rfl, hle]
      simp
    refine ⟨_, hloop, ?_, ?_⟩
    · intro lf hlf
      have hcov := sibEntries_cover hmac g.key.prg0.key g.key.prg1.key
        (bytesToBits [x]) p.bits.length v lf 8 (by omega) (by omega) (by omega)
      rw [hcov]
      have hpbits : p.bits = (bytesToBits [x]).take p.bits.length :=
        List.prefix_iff_eq_take.mp hpre
      have h1iff : p.bits <+: lf ↔
          lf.take p.bits.length = (bytesToBits [x]).take p.bits.length := by
        rw [List.prefix_iff_eq_take]
        constructor
        · intro h
          rw [← h]
          exact hpbits
        · intro h
          rw [h]
          exact hpbits
      have h2iff : lf ≠ bytesToBits [x] ↔
          ¬ lf.take 8 = (bytesToBits [x]).take 8 := by
        rw [List.take_of_length_le (by omega), List.take_of_length_le (by omega)]
      rw [h1iff, h2iff]
    · intro e he
      obtain ⟨m, hm1, hm2, rfl⟩ := mem_sibEntries hmac _ _ (bytesToBits [x])
        p.bits.length v 8 e he
      rfl

/-- C1 witness: puncture `0`, check `eval([1])` unchanged and the replacement
entries' coverage and values, on the concrete witness tree. -/
theorem puncture_locality_witness :
    GGM.eval hmacW (GGM.puncture hmacW gW [0]).1 [1] zeros =
      GGM.eval hmacW gW [1] zeros ∧
    (∃ w, GGM.eval hmacW gW [1] zeros = Except.ok w ∧ w.length = 32) ∧
    ((Pfx.mk [false]).bits.length ≠ 8 → ∃ newE,
      GGM.siblingsFor hmacW gW (Pfx.mk [false]).bits.length zeros
        (bytesToBits [0]) = some newE ∧
      (∀ lf : List Bool, lf.length = 8 →
        ((∃ e ∈ newE, e.1.bits <+: lf) ↔
          ((Pfx.mk [false]).bits <+: lf ∧ lf ≠ bytesToBits [0]))) ∧
      (∀ e ∈ newE, e.2 = expandFrom hmacW gW.key.prg0.key gW.key.prg1.key zeros
        (e.1.bits.drop (Pfx.mk [false]).bits.length))) :=
  puncture_locality hmacW zeros zeros zeros hmacW_32 gW reachW 0 1 (by decide)
    (by decide) (by decide) ⟨[false]⟩ zeros rfl rfl ⟨[true]⟩ zeros rfl ⟨[true]⟩
    zeros rfl zeros (by decide)

/-- C4: starting from `setup()` (1-byte width), puncturing all 256 distinct
byte values in any fixed sequence succeeds for each value and leaves the
frontier empty — the prefixes list has no entries — after the last call. -/
theorem exhaustive_puncture (hmac : List Nat → List Nat → List Nat)
    (s0 s1 secret : List Nat) (h32 : Hmac32 hmac) (g : GGM)
    (hsetup : GGM.setup hmac s0 s1 secret = some g) (xs : List Nat)
    (hnd : xs.Nodup) (hlt : ∀ x ∈ xs, x < 256) (hlen : xs.length = 256) :
    (punctureAll hmac g (xs.map fun x => [x])).2 = true ∧
    (punctureAll hmac g (xs.map fun x => [x])).1.key.prefixes = [] := by
  have hInv := inv_setup hmac s0 s1 secret g hsetup
  obtain ⟨h1, h2, h3⟩ := punctureAll_go hmac secret h32 xs g hInv hlt hnd (by
    intro x hx
    rw [setup_punctured_nil hmac s0 s1 secret g hsetup]
    simp)
  refine ⟨h1, ?_⟩
  apply prefixes_nil_of_all_punctured hmac secret _ h2
  intro b hb
  rw [h3]
  right
  refine ⟨b, mem_of_nodup_256 xs hnd hlt hlen b hb, ?_⟩
  rw [bytesToBits_singleton]

/-- C4 witness: the concrete sequence `0, 1, …, 255` on the witness tree. -/
theorem exhaustive_puncture_witness :
    (punctureAll hmacW gW ((List.range 256).map fun x => [x])).2 = true ∧
    (punctureAll hmacW gW ((List.range 256).map fun x => [x])).1.key.prefixes
      = [] :=
  exhaustive_puncture hmacW zeros zeros zeros hmacW_32 gW setupW
    (List.range 256) (List.nodup_range 256) (fun x hx => List.mem_range.mp hx)
    (List.length_range 256)

end Ggm
